import Mathlib

set_option maxHeartbeats 2000000
set_option maxRecDepth 8000

/-!
Verification of the AIG construction and K-feasible cut enumeration implemented
in `src/main.rs` of the `cba` repository.  The Rust code is embedded shallowly:
pure data is translated to Lean structures, the stateful passes become explicit
state passing, `u32` arithmetic is `Nat` with an explicit `% 2 ^ 32` where the
source can overflow, `f32` annotations become `WithTop F32` for an exact
unnormalised-fraction type `F32` (an idealisation: it is faithful to `f32`
only while every value and partial sum stays in the integer-exact range
`|v| ≤ 2^24`, and it erases the `HashSet` iteration order of the source's
area-flow accumulation — claims that rest on exactness or cross-run
reproducibility of the stored `f32` sums are therefore not settled here), and
every Rust panic, failed assertion, or host-stack overflow is an
`Option.none`.
-/

/-- Reference to a node in an AIG graph.  The Rust code packs the index and the
two flag bits into a single `u64` (48-bit index, bit 62 = invert flag, bit 63 =
PI flag); the packing is memory layout only, so the reference is modelled as a
record of the three fields.  `pi` is the `is_pi` bit, `invert` the `is_invert`
bit, `idx` the slot index. -/
structure AIGRef where
  idx : Nat
  invert : Bool
  pi : Bool
deriving DecidableEq

/-- The `AIGRef::new` constructor. -/
def AIGRef.new (idx : Nat) (invert pi : Bool) : AIGRef := ⟨idx, invert, pi⟩

/-- The `AIGRef::noinv` operation: clear the inversion flag. -/
def AIGRef.noinv (r : AIGRef) : AIGRef := { r with invert := false }

/-- The `AIGRef::inv` operation: toggle the inversion flag. -/
def AIGRef.inv (r : AIGRef) : AIGRef := { r with invert := !r.invert }

/-- The `LUT_SZ` constant: the K parameter of K-feasible cut enumeration. -/
def LUT_SZ : Nat := 4

/-- The value `u32::MAX`, used by the source as the initial sentinel for
arrival times ("not yet computed"). -/
def U32MAX : Nat := 2 ^ 32 - 1

/-- Exact fraction standing in for the finite `f32` values of the source:
`num / den`.  This is an idealisation of IEEE binary32: it agrees with the
program's `f32` arithmetic only while every value and partial sum stays
within the integer-exact range `|v| ≤ 2^24`; beyond that the program's `f32`
addition rounds while this model does not.  Fractions are not normalised.
Comparisons go through `aflt`/`afle` below, which for positive denominators
agree with the rational order (and `f32` comparison is itself exact). -/
structure F32 where
  num : Int
  den : Nat
deriving DecidableEq

instance : Zero F32 := ⟨⟨0, 1⟩⟩

instance : One F32 := ⟨⟨1, 1⟩⟩

/-- Exact addition of fractions, without normalisation. -/
def F32.add (x y : F32) : F32 := ⟨x.num * y.den + y.num * x.den, x.den * y.den⟩

instance : Add F32 := ⟨F32.add⟩

instance : AddCommMonoid F32 where
  add_assoc a b c := by
    cases a
    cases b
    cases c
    show F32.add (F32.add _ _) _ = F32.add _ (F32.add _ _)
    simp only [F32.add, F32.mk.injEq]
    constructor
    · push_cast
      ring
    · ring
  zero_add a := by
    cases a
    show F32.add ⟨0, 1⟩ _ = _
    simp only [F32.add, F32.mk.injEq]
    constructor
    · push_cast
      ring
    · exact Nat.one_mul _
  add_zero a := by
    cases a
    show F32.add _ ⟨0, 1⟩ = _
    simp only [F32.add, F32.mk.injEq]
    constructor
    · push_cast
      ring
    · exact Nat.mul_one _
  add_comm a b := by
    cases a
    cases b
    show F32.add _ _ = F32.add _ _
    simp only [F32.add, F32.mk.injEq]
    exact ⟨Int.add_comm _ _, Nat.mul_comm _ _⟩
  nsmul := nsmulRec

/-- Division of an `f32` value by a positive machine integer, as exact
fractions. -/
def F32.divNat (x : F32) (n : Nat) : F32 := ⟨x.num, x.den * n⟩

/-- The `f32` strict-order test `x < y`, with `⊤` playing `f32::INFINITY`.
For finite values it is the cross-multiplied fraction order (exact for the
positive denominators that actually occur). -/
def aflt (x y : WithTop F32) : Bool :=
  match x, y with
  | ⊤, _ => false
  | some _, ⊤ => true
  | some a, some b => decide (a.num * (b.den : Int) < b.num * (a.den : Int))

/-- The `f32` order test `x ≤ y`, with `⊤` playing `f32::INFINITY`. -/
def afle (x y : WithTop F32) : Bool :=
  match x, y with
  | _, ⊤ => true
  | ⊤, some _ => false
  | some a, some b => decide (a.num * (b.den : Int) ≤ b.num * (a.den : Int))

/-- An `AIGCut`: a set of leaf references plus the two scalar annotations.
`refs` is a `HashSet<AIGRef>` in the source, hence a `Finset`; `arrival` is a
`u32`; `area_flow` is an `f32`, modelled as `WithTop F32` with `⊤` for
`f32::INFINITY`. -/
structure AIGCut where
  refs : Finset AIGRef
  arrival : Nat
  area_flow : WithTop F32
deriving DecidableEq

/-- `AIGCut::trivial`: the singleton cut of a reference, with the sentinel
annotations `u32::MAX` and `f32::INFINITY`. -/
def AIGCut.trivial (nref : AIGRef) : AIGCut := ⟨{nref}, U32MAX, ⊤⟩

/-- An `AIGNode`: an AND node of the AIG. -/
structure AIGNode where
  name : String
  inp0 : AIGRef
  inp1 : AIGRef
  num_fanouts : Nat
  cuts : List AIGCut
  arrival : Nat
  area_flow : WithTop F32
deriving DecidableEq

/-- The `AIGNode::new` constructor. -/
def AIGNode.new (inp0 inp1 : AIGRef) (name : String) : AIGNode :=
  ⟨name, inp0, inp1, 0, [], U32MAX, ⊤⟩

/-- Default node used by the total `List.getD` reads; the Rust code would panic
on the corresponding out-of-range index, and the theorems' hypotheses keep all
indices in range so this value is never actually consulted there. -/
def AIGNode.dflt : AIGNode := AIGNode.new (AIGRef.new 0 false true) (AIGRef.new 0 false true) ""

/-- The complete `AIG` aggregate. -/
structure AIG where
  nodes : List AIGNode
  pi : List String
  po : List (String × AIGRef)
  topo_order : List Nat
deriving DecidableEq

/-- Default AIG used only to spell concrete `Option.getD` witnesses. -/
def AIG.dflt : AIG := ⟨[], [], [], []⟩

/-! ### The consumed subset of the `yosys_netlist_json` input format -/

/-- A single bit value of the netlist format: a numeric net id, or one of the
special constant bits (`0`, `1`, `x`, `z`), which `main.rs` always rejects. -/
inductive BitVal where
  | n (v : Nat)
  | s (v : String)
deriving DecidableEq

/-- Port directions of the netlist format. -/
inductive PortDirection where
  | input
  | output
  | inout
deriving DecidableEq

/-- A port of the top module. -/
structure Port where
  direction : PortDirection
  bits : List BitVal
deriving DecidableEq

/-- A cell of the top module. -/
structure Cell where
  cell_type : String
  connections : List (String × List BitVal)
deriving DecidableEq

/-- A netname entry of the top module. -/
structure Netname where
  bits : List BitVal
deriving DecidableEq

/-- A module of the netlist.  Attribute values are kept only through the lens
the source looks at them (`to_number`): `some v` for a numeric value. -/
structure NetlistModule where
  attributes : List (String × Option Nat)
  ports : List (String × Port)
  cells : List (String × Cell)
  netnames : List (String × Netname)
deriving DecidableEq

/-- A whole netlist. -/
structure Netlist where
  modules : List (String × NetlistModule)
deriving DecidableEq

/-- The `NetAttrs` record built by `parse_netlist` for every net. -/
structure NetAttrs where
  name : Option String
  driver : Option Cell
  input : Bool
deriving DecidableEq

/-- Lookup in the association lists standing in for the Rust `HashMap`s. -/
def alistGet {β : Type} (m : List (Nat × β)) (k : Nat) : Option β :=
  (m.find? (fun p => p.1 == k)).map (fun p => p.2)

/-- Insert-or-replace for the association lists standing in for `HashMap`s. -/
def alistInsert {β : Type} (m : List (Nat × β)) (k : Nat) (v : β) : List (Nat × β) :=
  if (m.find? (fun p => p.1 == k)).isSome then
    m.map (fun p => if p.1 == k then (k, v) else p)
  else m ++ [(k, v)]

/-- The `get_cell_conn` helper: fetch a single-bit numeric connection of a
cell.  `none` models the panics for a missing connection, a signal that is not
exactly one bit wide, and a constant bit. -/
def get_cell_conn (cell : Cell) (conn : String) : Option Nat :=
  match cell.connections.find? (fun p => p.1 == conn) with
  | some (_, [BitVal.n v]) => some v
  | _ => none

/-- The `process_input` helper of `parse_netlist`, parameterised by the
processor used for driver cells (the Rust function recurses into
`process_cell`; the parameter is instantiated with `process_cell` at one less
fuel, since each nested `process_cell` consumes one stack frame). -/
def process_input (pc : String → Cell → List AIGNode → Option (List AIGNode × AIGRef))
    (nets : List (Nat × NetAttrs)) (pimap : List (Nat × Nat)) (yosys_net_idx : Nat)
    (nodes : List AIGNode) : Option (List AIGNode × AIGRef) := do
  let net ← alistGet nets yosys_net_idx
  if net.input then do
    let pi_idx ← alistGet pimap yosys_net_idx
    some (nodes, AIGRef.new pi_idx false true)
  else do
    let driver ← net.driver
    pc (net.name.getD "") driver nodes

/-- The `add_cell` helper: append an AND node and return a plain (uninverted,
non-PI) reference to it. -/
def add_cell (nodes : List AIGNode) (n : AIGNode) : List AIGNode × AIGRef :=
  (nodes ++ [n], AIGRef.new nodes.length false false)

/-- The `process_cell` function of `parse_netlist`.  The Rust function recurses
through the cell graph on the host stack; `fuel` models that stack, and is
exhausted only on a combinational cycle (callers pass `cells.length + 1`, which
the development shows is enough for every acyclic netlist, since the recursion
descends through pairwise distinct cells).  `none` models every panic. -/
def process_cell : Nat → List (Nat × NetAttrs) → List (Nat × Nat) → String → Cell →
    List AIGNode → Option (List AIGNode × AIGRef)
  | 0, _, _, _, _, _ => none
  | fuel + 1, nets, pimap, cellname, cell, nodes =>
    let pin := process_input (process_cell fuel nets pimap) nets pimap
    match cell.cell_type with
    | "$_BUF_" => do
        let ca ← get_cell_conn cell "A"
        pin ca nodes
    | "$_NOT_" => do
        let ca ← get_cell_conn cell "A"
        let (nodes, r) ← pin ca nodes
        some (nodes, r.inv)
    | "$_AND_" => do
        let ca ← get_cell_conn cell "A"
        let (nodes, a) ← pin ca nodes
        let cb ← get_cell_conn cell "B"
        let (nodes, b) ← pin cb nodes
        some (add_cell nodes (AIGNode.new a b cellname))
    | "$_OR_" => do
        let ca ← get_cell_conn cell "A"
        let (nodes, a) ← pin ca nodes
        let cb ← get_cell_conn cell "B"
        let (nodes, b) ← pin cb nodes
        let (nodes, r) := add_cell nodes (AIGNode.new a.inv b.inv cellname)
        some (nodes, r.inv)
    | "$_NAND_" => do
        let ca ← get_cell_conn cell "A"
        let (nodes, a) ← pin ca nodes
        let cb ← get_cell_conn cell "B"
        let (nodes, b) ← pin cb nodes
        let (nodes, r) := add_cell nodes (AIGNode.new a b cellname)
        some (nodes, r.inv)
    | "$_NOR_" => do
        let ca ← get_cell_conn cell "A"
        let (nodes, a) ← pin ca nodes
        let cb ← get_cell_conn cell "B"
        let (nodes, b) ← pin cb nodes
        some (add_cell nodes (AIGNode.new a.inv b.inv cellname))
    | "$_XOR_" => do
        let ca ← get_cell_conn cell "A"
        let (nodes, a) ← pin ca nodes
        let cb ← get_cell_conn cell "B"
        let (nodes, b) ← pin cb nodes
        let (nodes, n1) := add_cell nodes (AIGNode.new a b.inv (cellname ++ "_n1"))
        let (nodes, n2) := add_cell nodes (AIGNode.new a.inv b (cellname ++ "_n2"))
        let (nodes, n3) := add_cell nodes (AIGNode.new n1.inv n2.inv (cellname ++ "_n3"))
        some (nodes, n3.inv)
    | "$_XNOR_" => do
        let ca ← get_cell_conn cell "A"
        let (nodes, a) ← pin ca nodes
        let cb ← get_cell_conn cell "B"
        let (nodes, b) ← pin cb nodes
        let (nodes, n1) := add_cell nodes (AIGNode.new a b.inv (cellname ++ "_n1"))
        let (nodes, n2) := add_cell nodes (AIGNode.new a.inv b (cellname ++ "_n2"))
        let (nodes, n3) := add_cell nodes (AIGNode.new n1.inv n2.inv (cellname ++ "_n3"))
        some (nodes, n3)
    | "$_ANDNOT_" => do
        let ca ← get_cell_conn cell "A"
        let (nodes, a) ← pin ca nodes
        let cb ← get_cell_conn cell "B"
        let (nodes, b) ← pin cb nodes
        some (add_cell nodes (AIGNode.new a b.inv cellname))
    | "$_ORNOT_" => do
        let ca ← get_cell_conn cell "A"
        let (nodes, a) ← pin ca nodes
        let cb ← get_cell_conn cell "B"
        let (nodes, b) ← pin cb nodes
        let (nodes, r) := add_cell nodes (AIGNode.new a.inv b cellname)
        some (nodes, r.inv)
    | _ => none

/-- The `AIG::parse_netlist` function (lines 146-394 of `main.rs`).  `none`
models every panic and failed assertion; the printouts are pure output and
omitted. -/
def parse_netlist (netlist : Netlist) : Option AIG := do
  -- find the unique module whose "top" attribute is a nonzero number
  let top_module ←
    match netlist.modules.filter (fun m =>
        match m.2.attributes.find? (fun a => a.1 == "top") with
        | some (_, some v) => v != 0
        | _ => false) with
    | [m] => some m.2
    | _ => none
  -- read netnames
  let nets ← top_module.netnames.foldlM (fun nets p =>
      match p.2.bits with
      | [BitVal.n bitidx] => some (alistInsert nets bitidx ⟨some p.1, none, false⟩)
      | _ => none) ([] : List (Nat × NetAttrs))
  -- read cells: record each cell as the driver of its Y net
  let nets ← top_module.cells.foldlM (fun nets p => do
      let output ← get_cell_conn p.2 "Y"
      match alistGet nets output with
      | some attr =>
        if attr.driver.isSome then none
        else some (alistInsert nets output { attr with driver := some p.2 })
      | none => some (alistInsert nets output ⟨none, some p.2, false⟩)) nets
  -- read input ports
  let (nets, pi, pimap) ← top_module.ports.foldlM (fun st p => do
      let (nets, pi, pimap) := st
      match p.2.bits with
      | [BitVal.n bitidx] =>
        match p.2.direction with
        | PortDirection.input => do
          let nets2 ←
            match alistGet nets bitidx with
            | some attr =>
              match attr.name with
              | some nm =>
                if nm == p.1 && attr.driver.isNone then
                  some (alistInsert nets bitidx { attr with input := true })
                else none
              | none => none
            | none => some (alistInsert nets bitidx ⟨some p.1, none, true⟩)
          some (nets2, pi ++ [p.1], pimap ++ [(bitidx, pi.length)])
        | PortDirection.output => some st
        | PortDirection.inout => none
      | _ => none) (nets, ([] : List String), ([] : List (Nat × Nat)))
  -- read output ports
  let (nodes, po) ← top_module.ports.foldlM (fun st p => do
      let (nodes, po) := st
      match p.2.bits with
      | [BitVal.n bitidx] =>
        if p.2.direction == PortDirection.output then do
          let attr ← alistGet nets bitidx
          if attr.input then none
          else
            match attr.name with
            | some nm =>
              if nm == p.1 then do
                let cell ← attr.driver
                let (nodes, po_aigref) ←
                  process_cell (top_module.cells.length + 1) nets pimap p.1 cell nodes
                some (nodes, po ++ [(p.1, po_aigref)])
              else none
            | none => none
        else some st
      | _ => none) (([] : List AIGNode), ([] : List (String × AIGRef)))
  some ⟨nodes, pi, po, []⟩

/-! ### Topological order -/

/-- The `AIG::_topo_visit` DFS (lines 405-417).  The Rust function recurses on
the host stack; `fuel` models that stack and is exhausted only on a cyclic
graph (callers pass `nodes.length + 1`, enough for any DAG).  `none` also
models the panic of an out-of-range node index. -/
def _topo_visit : Nat → List AIGNode → List Nat → AIGRef → Option (List AIGNode × List Nat)
  | 0, _, _, _ => none
  | fuel + 1, ns, ord, nref =>
    if nref.pi then some (ns, ord)
    else
      match ns[nref.idx]? with
      | none => none
      | some nd =>
        if nd.num_fanouts > 0 then some (ns, ord)
        else do
          let (ns, ord) ← _topo_visit fuel ns ord nd.inp0
          let (ns, ord) ← _topo_visit fuel ns ord ((ns.getD nref.idx AIGNode.dflt).inp1)
          let cur := ns.getD nref.idx AIGNode.dflt
          some (ns.set nref.idx { cur with num_fanouts := 1 }, ord ++ [nref.idx])

/-- The `AIG::calc_topo_order` pass (lines 418-433): reset the `num_fanouts`
mark bits, DFS from every PO, reset the mark bits again. -/
def calc_topo_order (aig : AIG) : Option AIG := do
  let ns0 := aig.nodes.map (fun n => { n with num_fanouts := 0 })
  let (ns, ord) ← aig.po.foldlM
    (fun (st : List AIGNode × List Nat) p => _topo_visit (aig.nodes.length + 1) st.1 st.2 p.2)
    (ns0, ([] : List Nat))
  some { aig with nodes := ns.map (fun n => { n with num_fanouts := 0 }), topo_order := ord }

/-! ### Cut enumeration -/

/-- Arrival contributed by one cut leaf (lines 579-583): a PI contributes `0`,
a node contributes its stored per-node arrival. -/
def leaf_arrival (ns : List AIGNode) (r : AIGRef) : Nat :=
  if r.pi then 0 else (ns.getD r.idx AIGNode.dflt).arrival

/-- The maximum leaf arrival of a cut, computed by the running-max loop at
lines 577-588; the `HashSet` iteration order is irrelevant because max is
commutative, so the loop is a `Finset.sup`. -/
def cut_arrival (ns : List AIGNode) (c : AIGCut) : Nat :=
  c.refs.sup (leaf_arrival ns)

/-- Area flow contributed by one cut leaf (lines 602-606): a PI contributes
`0.0`, a node contributes its stored per-node area flow. -/
def leaf_area_flow (ns : List AIGNode) (r : AIGRef) : WithTop F32 :=
  if r.pi then 0 else (ns.getD r.idx AIGNode.dflt).area_flow

/-- The summed leaf area flow of a cut plus one (lines 600-611).  The source
folds `f32` additions in the `HashSet` iteration order; this models that loop
as an exact `Finset.sum`, which coincides with the source in any order only
while every partial sum stays within `f32`'s integer-exact range `≤ 2^24` —
outside it the source's sum rounds and depends on the iteration order, which
this definition erases. -/
def cut_area_flow (ns : List AIGNode) (c : AIGCut) : WithTop F32 :=
  c.refs.sum (leaf_area_flow ns) + 1

/-- The dominated-cut removal loop (lines 549-572), rendered with the examined
list split at the loop index `i`: `acc` is the already-kept prefix (indices
below `i`), `rem` the rest.  The cut at `i` is removed when any *other* live
cut's leaf set is a subset of its leaf set, otherwise `i` advances. -/
def dominance_filter : List AIGCut → List AIGCut → List AIGCut
  | acc, [] => acc
  | acc, cuti :: rest =>
    if (acc ++ rest).any (fun cutj => decide (cutj.refs ⊆ cuti.refs)) then
      dominance_filter acc rest
    else
      dominance_filter (acc ++ [cuti]) rest

/-- The body of the `loopdeloop` main loop (lines 510-626) for one entry of
`topo_order`: build the fan-in candidate cut lists, take the K-bounded cross
product, filter dominated cuts, annotate each cut with its arrival (a `u32`,
hence the `% 2 ^ 32`) and its area flow, and store the cuts and the two
per-node best values.  Out-of-range reads use the default node; the Rust code
would panic there, and the theorems' hypotheses keep every index in range. -/
def loopdeloop_step (ns : List AIGNode) (nodei : Nat) : List AIGNode :=
  let n := ns.getD nodei AIGNode.dflt
  let inp0_cuts := (if n.inp0.pi then [] else (ns.getD n.inp0.idx AIGNode.dflt).cuts) ++
    [AIGCut.trivial n.inp0.noinv]
  let inp1_cuts := (if n.inp1.pi then [] else (ns.getD n.inp1.idx AIGNode.dflt).cuts) ++
    [AIGCut.trivial n.inp1.noinv]
  let new_cuts := inp0_cuts.flatMap (fun inp0_cut => inp1_cuts.filterMap (fun inp1_cut =>
    let combined_cut := inp0_cut.refs ∪ inp1_cut.refs
    if combined_cut.card > LUT_SZ then none
    else some (⟨combined_cut, U32MAX, ⊤⟩ : AIGCut)))
  let filtered := dominance_filter [] new_cuts
  let with_arrival := filtered.map (fun cut =>
    { cut with arrival := (1 + cut_arrival ns cut) % 2 ^ 32 })
  let best_arrival := with_arrival.foldl
    (fun b cut => if cut.arrival < b then cut.arrival else b) U32MAX
  let with_af := with_arrival.map (fun cut =>
    { cut with area_flow :=
        if n.num_fanouts > 0 then (cut_area_flow ns cut).map (fun af => af.divNat n.num_fanouts)
        else cut_area_flow ns cut })
  let best_area_flow := with_af.foldl
    (fun b cut => if aflt cut.area_flow b then cut.area_flow else b) (⊤ : WithTop F32)
  ns.set nodei { n with cuts := with_af, arrival := best_arrival, area_flow := best_area_flow }

/-- The `AIG::loopdeloop` pass (lines 507-651).  `none` models the failure of
`assert!(self.topo_order.len() > 0)`; the DOT dump is pure output and omitted. -/
def loopdeloop (aig : AIG) : Option AIG :=
  if aig.topo_order.length > 0 then
    some { aig with nodes := aig.topo_order.foldl loopdeloop_step aig.nodes }
  else none

/-- The whole `main` flow on an already-parsed netlist (lines 654-675): lower
the netlist, compute the topological order, enumerate cuts.  File output and
printing are omitted. -/
def pipeline (netlist : Netlist) : Option AIG := do
  let aig ← parse_netlist netlist
  let aig2 ← calc_topo_order aig
  loopdeloop aig2

/-! ### Specification-side truth-table semantics

The source has no evaluator; claim C1 compares the lowered AIG against its
spec truth table, so the evaluator below is modelled from the spec's words
("the Boolean function from PIs to the PO, computed by exhaustive truth-table
evaluation over the resulting AIG"). -/

/-- Value of an edge, given the values of the PIs and of the already-evaluated
nodes: look up the targeted slot, then apply the inversion flag. -/
def eval_ref (vals : List Bool) (pis : List Bool) (r : AIGRef) : Bool :=
  let v := if r.pi then pis.getD r.idx false else vals.getD r.idx false
  if r.invert then !v else v

/-- Evaluate every node of an acyclic AIG in index order (fan-ins of a node of
an acyclic AIG have smaller indices, so their values are already in `vals`). -/
def eval_nodes (nodes : List AIGNode) (pis : List Bool) : List Bool :=
  nodes.foldl (fun vals nd => vals ++ [eval_ref vals pis nd.inp0 && eval_ref vals pis nd.inp1]) []

/-- Truth-table evaluation of an AIG edge from PI values. -/
def eval_aig (aig : AIG) (pis : List Bool) (r : AIGRef) : Bool :=
  eval_ref (eval_nodes aig.nodes pis) pis r

/-! ### Invariant predicates -/

/-- Acyclicity by construction: each fan-in of a node is a PI or refers to a
strictly smaller node index. -/
def Acyclic (ns : List AIGNode) : Prop :=
  ∀ i < ns.length,
    ((ns.getD i AIGNode.dflt).inp0.pi = false → (ns.getD i AIGNode.dflt).inp0.idx < i) ∧
    ((ns.getD i AIGNode.dflt).inp1.pi = false → (ns.getD i AIGNode.dflt).inp1.idx < i)

/-- Every PO edge targets a PI or a valid node index. -/
def PoValid (aig : AIG) : Prop :=
  ∀ p ∈ aig.po, p.2.pi = true ∨ p.2.idx < aig.nodes.length

instance (ns : List AIGNode) : Decidable (Acyclic ns) := by
  unfold Acyclic; infer_instance

instance (aig : AIG) : Decidable (PoValid aig) := by
  unfold PoValid; infer_instance

/-- Every `topo_order` entry is a valid node index. -/
def TopoBounded (aig : AIG) : Prop :=
  ∀ i ∈ aig.topo_order, i < aig.nodes.length

/-- Each `topo_order` entry appears after both of its non-PI fan-ins. -/
def FaninsBefore (aig : AIG) : Prop :=
  ∀ t < aig.topo_order.length,
    ((aig.nodes.getD (aig.topo_order.getD t 0) AIGNode.dflt).inp0.pi = false →
      ∃ s < t, aig.topo_order.getD s 0 =
        (aig.nodes.getD (aig.topo_order.getD t 0) AIGNode.dflt).inp0.idx) ∧
    ((aig.nodes.getD (aig.topo_order.getD t 0) AIGNode.dflt).inp1.pi = false →
      ∃ s < t, aig.topo_order.getD s 0 =
        (aig.nodes.getD (aig.topo_order.getD t 0) AIGNode.dflt).inp1.idx)

/-- No node has stored cuts yet (the state `parse_netlist` leaves behind). -/
def CutsEmpty (ns : List AIGNode) : Prop := ∀ n ∈ ns, n.cuts = []

/-- Every `num_fanouts` field is zero (the state `calc_topo_order` leaves
behind). -/
def FanoutsZero (ns : List AIGNode) : Prop := ∀ n ∈ ns, n.num_fanouts = 0

instance (aig : AIG) : Decidable (TopoBounded aig) := by
  unfold TopoBounded; infer_instance

instance (aig : AIG) : Decidable (FaninsBefore aig) := by
  unfold FaninsBefore; infer_instance

instance (ns : List AIGNode) : Decidable (CutsEmpty ns) := by
  unfold CutsEmpty; infer_instance

instance (ns : List AIGNode) : Decidable (FanoutsZero ns) := by
  unfold FanoutsZero; infer_instance

/-- Nodes reachable from node `i` through fan-in edges (edge polarity
ignored): the fan-in cone of `i`, including `i` itself. -/
inductive ReachFrom (ns : List AIGNode) (i : Nat) : Nat → Prop where
  | refl : ReachFrom ns i i
  | fanin0 (j : Nat) : ReachFrom ns i j → (ns.getD j AIGNode.dflt).inp0.pi = false →
      ReachFrom ns i (ns.getD j AIGNode.dflt).inp0.idx
  | fanin1 (j : Nat) : ReachFrom ns i j → (ns.getD j AIGNode.dflt).inp1.pi = false →
      ReachFrom ns i (ns.getD j AIGNode.dflt).inp1.idx

/-- A node is reachable from some PO of the AIG. -/
def Reach (aig : AIG) (i : Nat) : Prop :=
  ∃ p ∈ aig.po, p.2.pi = false ∧ ReachFrom aig.nodes p.2.idx i

/-- A cut list in which no leaf set is a (strict or equal) subset of another
entry's leaf set. -/
def CutsAntichain (l : List AIGCut) : Prop :=
  l.Pairwise (fun a b => ¬(a.refs ⊆ b.refs) ∧ ¬(b.refs ⊆ a.refs))

/-! ### Concrete fixtures -/

/-- A module with PIs `a`, `b`, one XOR cell, and a PO `y` (seed scenario 3 of
the spec). -/
def xorNetlist : Netlist :=
  ⟨[("top",
    ⟨[("top", some 1)],
     [("a", ⟨PortDirection.input, [BitVal.n 2]⟩),
      ("b", ⟨PortDirection.input, [BitVal.n 3]⟩),
      ("y", ⟨PortDirection.output, [BitVal.n 4]⟩)],
     [("x0", ⟨"$_XOR_", [("A", [BitVal.n 2]), ("B", [BitVal.n 3]), ("Y", [BitVal.n 4])]⟩)],
     [("a", ⟨[BitVal.n 2]⟩), ("b", ⟨[BitVal.n 3]⟩), ("y", ⟨[BitVal.n 4]⟩)]⟩)]⟩

/-- The AIG that lowering the XOR module produces. -/
def aigXor : AIG :=
  ⟨[⟨"y_n1", AIGRef.new 0 false true, AIGRef.new 1 true true, 0, [], U32MAX, ⊤⟩,
    ⟨"y_n2", AIGRef.new 0 true true, AIGRef.new 1 false true, 0, [], U32MAX, ⊤⟩,
    ⟨"y_n3", AIGRef.new 0 true false, AIGRef.new 1 true false, 0, [], U32MAX, ⊤⟩],
   ["a", "b"], [("y", AIGRef.new 2 true false)], []⟩

/-- The XOR AIG after `calc_topo_order`. -/
def aigXorT : AIG := { aigXor with topo_order := [0, 1, 2] }

/-- A module with PI `a`, one BUF cell, and a PO `y` (the buffer-chain seed
scenario). -/
def bufNetlist : Netlist :=
  ⟨[("top",
    ⟨[("top", some 1)],
     [("a", ⟨PortDirection.input, [BitVal.n 2]⟩),
      ("y", ⟨PortDirection.output, [BitVal.n 3]⟩)],
     [("b0", ⟨"$_BUF_", [("A", [BitVal.n 2]), ("Y", [BitVal.n 3])]⟩)],
     [("a", ⟨[BitVal.n 2]⟩), ("y", ⟨[BitVal.n 3]⟩)]⟩)]⟩

/-- The AIG that lowering the buffer module produces: no AND nodes at all, the
PO edge points straight at PI 0. -/
def aigBuf : AIG := ⟨[], ["a"], [("y", AIGRef.new 0 false true)], []⟩

/-- A cut with leaf set `{PI 0}`. -/
def cutP0 : AIGCut := ⟨{AIGRef.new 0 false true}, U32MAX, ⊤⟩

/-- A cut with leaf set `{PI 0, PI 1}`. -/
def cutP01 : AIGCut := ⟨{AIGRef.new 0 false true, AIGRef.new 1 false true}, U32MAX, ⊤⟩

/-- Two node lists that agree except possibly on the `num_fanouts` mark bits
(the only field the topological DFS mutates). -/
def EqButFanouts (ns base : List AIGNode) : Prop :=
  ns.length = base.length ∧
  ∀ i, ({ ns.getD i AIGNode.dflt with num_fanouts := 0 } : AIGNode) =
    { base.getD i AIGNode.dflt with num_fanouts := 0 }

/-- Invariant of the topological DFS state `(ns, ord)` relative to the
original node list `base`: the nodes differ from `base` only in mark bits,
`ord` holds valid, pairwise distinct indices, a node is marked exactly when it
has been pushed, and every pushed node comes after both of its non-PI
fan-ins. -/
def TopoInv (base ns : List AIGNode) (ord : List Nat) : Prop :=
  EqButFanouts ns base ∧
  (∀ i ∈ ord, i < base.length) ∧
  ord.Nodup ∧
  (∀ i, i < base.length → ((ns.getD i AIGNode.dflt).num_fanouts ≠ 0 ↔ i ∈ ord)) ∧
  (∀ t, t < ord.length →
    (((base.getD (ord.getD t 0) AIGNode.dflt).inp0.pi = false →
       ∃ u, u < t ∧ ord.getD u 0 = (base.getD (ord.getD t 0) AIGNode.dflt).inp0.idx) ∧
     ((base.getD (ord.getD t 0) AIGNode.dflt).inp1.pi = false →
       ∃ u, u < t ∧ ord.getD u 0 = (base.getD (ord.getD t 0) AIGNode.dflt).inp1.idx)))

/-- Specification of a well-behaved cell processor: on success it only appends
nodes, preserves acyclicity, and returns a PI reference or a valid node index.
Used to verify `process_cell` by induction on its fuel. -/
def ProcSpec (f : List AIGNode → Option (List AIGNode × AIGRef)) : Prop :=
  ∀ ns ns' r, f ns = some (ns', r) →
    (∃ ext, ns' = ns ++ ext) ∧ (Acyclic ns → Acyclic ns') ∧ (r.pi = true ∨ r.idx < ns'.length)

/-- An `f32` model value with a positive denominator (every finite value this
program computes has one); for such values `aflt`/`afle` agree with the
rational order, and `afle` is transitive across them. -/
def AfPos (x : WithTop F32) : Prop :=
  match x with
  | ⊤ => True
  | some f => 0 < f.den

/-- Leaf-set sanity of a candidate cut built while processing node `j` with
the processed-index set `pre`: every leaf has its inversion bit cleared and is
a PI or an already-processed node of smaller index. -/
def CandOk (pre : List Nat) (j : Nat) (c : AIGCut) : Prop :=
  ∀ r ∈ c.refs, r.invert = false ∧ (r.pi = true ∨ (r.idx < j ∧ r.idx ∈ pre))

/-- Everything `loopdeloop_step` guarantees about a node it has processed,
relative to the processed-index set `pre`: mark bit still clear, a nonempty
cut list whose members are K-bounded sane cuts annotated with the exact
arrival and area-flow formulas, and per-node annotations that are the minima
of the cut annotations. -/
def NodeDone (pre : List Nat) (ns : List AIGNode) (i : Nat) : Prop :=
  (ns.getD i AIGNode.dflt).num_fanouts = 0 ∧
  (ns.getD i AIGNode.dflt).cuts ≠ [] ∧
  (∀ c ∈ (ns.getD i AIGNode.dflt).cuts,
    c.refs.card ≤ LUT_SZ ∧
    CandOk pre i c ∧
    c.arrival = 1 + cut_arrival ns c ∧
    c.area_flow = cut_area_flow ns c ∧
    c.area_flow ≠ ⊤ ∧
    AfPos c.area_flow) ∧
  (ns.getD i AIGNode.dflt).arrival ≤ pre.length ∧
  (∃ c ∈ (ns.getD i AIGNode.dflt).cuts, (ns.getD i AIGNode.dflt).arrival = c.arrival) ∧
  (∀ c ∈ (ns.getD i AIGNode.dflt).cuts, (ns.getD i AIGNode.dflt).arrival ≤ c.arrival) ∧
  (ns.getD i AIGNode.dflt).area_flow ≠ ⊤ ∧
  AfPos (ns.getD i AIGNode.dflt).area_flow ∧
  (∃ c ∈ (ns.getD i AIGNode.dflt).cuts, (ns.getD i AIGNode.dflt).area_flow = c.area_flow) ∧
  (∀ c ∈ (ns.getD i AIGNode.dflt).cuts,
    afle (ns.getD i AIGNode.dflt).area_flow c.area_flow = true)

/-- Invariant of the `loopdeloop` main loop after the indices in `pre` have
been processed: the length is unchanged, unprocessed nodes are untouched, and
each processed node satisfies `NodeDone`. -/
def StepInv (base : List AIGNode) (pre : List Nat) (ns : List AIGNode) : Prop :=
  ns.length = base.length ∧
  (∀ i, i ∉ pre → ns.getD i AIGNode.dflt = base.getD i AIGNode.dflt) ∧
  (∀ i ∈ pre, NodeDone pre ns i)

/-- The candidate cut list contributed by one fan-in edge in
`loopdeloop_step`: the stored cuts of the fan-in node (none for a PI) plus
the trivial cut of the de-inverted edge. -/
def step_inp_cuts (ns : List AIGNode) (r : AIGRef) : List AIGCut :=
  (if r.pi then [] else (ns.getD r.idx AIGNode.dflt).cuts) ++ [AIGCut.trivial r.noinv]

/-- The K-bounded cross product of the two fan-in candidate lists built by
`loopdeloop_step` for node `j`. -/
def step_raw_cuts (ns : List AIGNode) (j : Nat) : List AIGCut :=
  (step_inp_cuts ns (ns.getD j AIGNode.dflt).inp0).flatMap (fun inp0_cut =>
    (step_inp_cuts ns (ns.getD j AIGNode.dflt).inp1).filterMap (fun inp1_cut =>
      if (inp0_cut.refs ∪ inp1_cut.refs).card > LUT_SZ then none
      else some (⟨inp0_cut.refs ∪ inp1_cut.refs, U32MAX, ⊤⟩ : AIGCut)))

/-- The surviving cuts of node `j` after dominance filtering. -/
def step_filtered (ns : List AIGNode) (j : Nat) : List AIGCut :=
  dominance_filter [] (step_raw_cuts ns j)

/-- The surviving cuts annotated with their arrival times. -/
def step_with_arrival (ns : List AIGNode) (j : Nat) : List AIGCut :=
  (step_filtered ns j).map (fun cut =>
    { cut with arrival := (1 + cut_arrival ns cut) % 2 ^ 32 })

/-- The per-node best (minimum) arrival of node `j`. -/
def step_best_arrival (ns : List AIGNode) (j : Nat) : Nat :=
  (step_with_arrival ns j).foldl
    (fun b cut => if cut.arrival < b then cut.arrival else b) U32MAX

/-- The surviving cuts annotated with their area flows. -/
def step_with_af (ns : List AIGNode) (j : Nat) : List AIGCut :=
  (step_with_arrival ns j).map (fun cut =>
    { cut with area_flow :=
        if (ns.getD j AIGNode.dflt).num_fanouts > 0 then
          (cut_area_flow ns cut).map (fun af =>
            af.divNat (ns.getD j AIGNode.dflt).num_fanouts)
        else cut_area_flow ns cut })

/-- The per-node best (minimum) area flow of node `j`. -/
def step_best_af (ns : List AIGNode) (j : Nat) : WithTop F32 :=
  (step_with_af ns j).foldl
    (fun b cut => if aflt cut.area_flow b then cut.area_flow else b) (⊤ : WithTop F32)

/-- Claim C1: lowering the one-XOR module produces exactly 3 AND nodes wired
as `¬ and(¬ and(a, ¬b), ¬ and(¬a, b))` with the PO edge inverted into the
third node, and exhaustive evaluation of the result equals the XOR truth
table. -/
theorem claim_C1 :
    parse_netlist xorNetlist = some aigXor ∧
    aigXor.nodes.length = 3 ∧
    (aigXor.nodes.getD 0 AIGNode.dflt).inp0 = AIGRef.new 0 false true ∧
    (aigXor.nodes.getD 0 AIGNode.dflt).inp1 = (AIGRef.new 1 false true).inv ∧
    (aigXor.nodes.getD 1 AIGNode.dflt).inp0 = (AIGRef.new 0 false true).inv ∧
    (aigXor.nodes.getD 1 AIGNode.dflt).inp1 = AIGRef.new 1 false true ∧
    (aigXor.nodes.getD 2 AIGNode.dflt).inp0 = (AIGRef.new 0 false false).inv ∧
    (aigXor.nodes.getD 2 AIGNode.dflt).inp1 = (AIGRef.new 1 false false).inv ∧
    aigXor.po = [("y", (AIGRef.new 2 false false).inv)] ∧
    (∀ a b : Bool, eval_aig aigXor [a, b] (AIGRef.new 2 false false).inv = xor a b) := by
  decide

/-! ### Generic list access helpers -/

theorem getD_set_self {α : Type} (d : α) :
    ∀ (l : List α) (i : Nat) (v : α), i < l.length → (l.set i v).getD i d = v := by
  intro l
  induction l with
  | nil => intro i v h; exact absurd h (Nat.not_lt_zero _)
  | cons a t ih =>
    intro i v h
    cases i with
    | zero => rfl
    | succ n => exact ih n v (Nat.lt_of_succ_lt_succ h)

theorem getD_set_ne {α : Type} (d : α) :
    ∀ (l : List α) (i j : Nat) (v : α), i ≠ j → (l.set i v).getD j d = l.getD j d := by
  intro l
  induction l with
  | nil => intro i j v _; rfl
  | cons a t ih =>
    intro i j v hij
    cases i with
    | zero =>
      cases j with
      | zero => exact absurd rfl hij
      | succ m => rfl
    | succ n =>
      cases j with
      | zero => rfl
      | succ m => exact ih n m v (fun h => hij (by rw [h]))

theorem getD_out {α : Type} (d : α) :
    ∀ (l : List α) (i : Nat), l.length ≤ i → l.getD i d = d := by
  intro l
  induction l with
  | nil => intro i _; cases i <;> rfl
  | cons a t ih =>
    intro i h
    cases i with
    | zero => exact absurd h (by simp)
    | succ n => exact ih n (Nat.le_of_succ_le_succ h)

theorem set_out {α : Type} :
    ∀ (l : List α) (i : Nat) (v : α), l.length ≤ i → l.set i v = l := by
  intro l
  induction l with
  | nil => intro i v _; rfl
  | cons a t ih =>
    intro i v h
    cases i with
    | zero => exact absurd h (by simp)
    | succ n => simpa using ih n v (Nat.le_of_succ_le_succ h)

/-! ### Dominance-filter lemmas -/

theorem dominance_filter_subset :
    ∀ (rem acc : List AIGCut) (x : AIGCut), x ∈ dominance_filter acc rem → x ∈ acc ++ rem := by
  intro rem
  induction rem with
  | nil => intro acc x hx; simpa [dominance_filter] using hx
  | cons c rest ih =>
    intro acc x hx
    simp only [dominance_filter] at hx
    by_cases h : ((acc ++ rest).any fun cutj => decide (cutj.refs ⊆ c.refs)) = true
    · rw [if_pos h] at hx
      have := ih acc x hx
      simp only [List.mem_append, List.mem_cons] at this ⊢
      tauto
    · rw [if_neg h] at hx
      have := ih (acc ++ [c]) x hx
      simp only [List.mem_append, List.mem_cons, List.mem_singleton] at this ⊢
      tauto

theorem dominance_filter_ne_nil :
    ∀ (rem acc : List AIGCut), acc ++ rem ≠ [] → dominance_filter acc rem ≠ [] := by
  intro rem
  induction rem with
  | nil => intro acc h; simpa [dominance_filter] using h
  | cons c rest ih =>
    intro acc h
    simp only [dominance_filter]
    by_cases hcond : ((acc ++ rest).any fun cutj => decide (cutj.refs ⊆ c.refs)) = true
    · rw [if_pos hcond]
      apply ih
      rcases List.any_eq_true.mp hcond with ⟨d, hd, _⟩
      intro hnil
      rw [hnil] at hd
      exact absurd hd (List.not_mem_nil d)
    · rw [if_neg hcond]
      apply ih
      simp

theorem dominance_filter_antichain :
    ∀ (rem acc : List AIGCut),
      acc.Pairwise (fun a b => ¬(a.refs ⊆ b.refs) ∧ ¬(b.refs ⊆ a.refs)) →
      (∀ a ∈ acc, ∀ b ∈ rem, ¬(b.refs ⊆ a.refs)) →
      CutsAntichain (dominance_filter acc rem) := by
  intro rem
  induction rem with
  | nil => intro acc h1 _; simpa [dominance_filter, CutsAntichain] using h1
  | cons c rest ih =>
    intro acc h1 h2
    simp only [dominance_filter]
    by_cases hcond : ((acc ++ rest).any fun cutj => decide (cutj.refs ⊆ c.refs)) = true
    · rw [if_pos hcond]
      exact ih acc h1 (fun a ha b hb => h2 a ha b (List.mem_cons_of_mem _ hb))
    · rw [if_neg hcond]
      have hnone : ∀ d ∈ acc ++ rest, ¬(d.refs ⊆ c.refs) := by
        intro d hd
        by_contra hsub
        exact hcond (List.any_eq_true.mpr ⟨d, hd, by simpa using hsub⟩)
      apply ih (acc ++ [c])
      · rw [List.pairwise_append]
        refine ⟨h1, List.pairwise_singleton _ _, ?_⟩
        intro a ha b hb
        rw [List.mem_singleton] at hb
        rw [hb]
        exact ⟨hnone a (List.mem_append_left _ ha), h2 a ha c (List.mem_cons_self _ _)⟩
      · intro a ha b hb
        rcases List.mem_append.mp ha with ha' | ha'
        · exact h2 a ha' b (List.mem_cons_of_mem _ hb)
        · rw [List.mem_singleton] at ha'
          subst ha'
          exact hnone b (List.mem_append_right _ hb)

theorem antichain_countP_le_one (S : Finset AIGRef) :
    ∀ (l : List AIGCut), CutsAntichain l →
      l.countP (fun c => decide (c.refs = S)) ≤ 1 := by
  intro l
  induction l with
  | nil => intro _; simp
  | cons c rest ih =>
    intro h
    rw [CutsAntichain, List.pairwise_cons] at h
    rw [List.countP_cons]
    by_cases hc : c.refs = S
    · have hzero : rest.countP (fun c => decide (c.refs = S)) = 0 := by
        rw [List.countP_eq_zero]
        intro b hb
        simp only [decide_eq_true_eq]
        intro hbS
        exact (h.1 b hb).1 (by rw [hc, hbS])
      simp [hzero, hc]
    · simp [hc, ih (h.2)]

theorem dominance_filter_exists_rep :
    ∀ (rem acc : List AIGCut) (S : Finset AIGRef),
      (∀ d ∈ acc ++ rem, ¬(d.refs ⊂ S)) → (∃ c ∈ acc ++ rem, c.refs = S) →
      ∃ c ∈ dominance_filter acc rem, c.refs = S := by
  intro rem
  induction rem with
  | nil => intro acc S _ hex; simpa [dominance_filter] using hex
  | cons c rest ih =>
    intro acc S hns hex
    simp only [dominance_filter]
    by_cases hcond : ((acc ++ rest).any fun cutj => decide (cutj.refs ⊆ c.refs)) = true
    · rw [if_pos hcond]
      apply ih acc S
      · intro d hd
        apply hns d
        simp only [List.mem_append, List.mem_cons] at hd ⊢
        tauto
      · rcases hex with ⟨w, hw, hwS⟩
        simp only [List.mem_append, List.mem_cons] at hw
        rcases hw with hw | hw | hw
        · exact ⟨w, List.mem_append_left _ hw, hwS⟩
        · subst hw
          rcases List.any_eq_true.mp hcond with ⟨d, hd, hsub⟩
          simp only [decide_eq_true_eq] at hsub
          rw [hwS] at hsub
          have hdS : d.refs = S := by
            by_contra hne
            exact hns d (by
              simp only [List.mem_append, List.mem_cons] at hd ⊢
              tauto) (Finset.ssubset_iff_subset_ne.mpr ⟨hsub, hne⟩)
          exact ⟨d, hd, hdS⟩
        · exact ⟨w, List.mem_append_right _ hw, hwS⟩
    · rw [if_neg hcond]
      apply ih (acc ++ [c]) S
      · intro d hd
        apply hns d
        simp only [List.mem_append, List.mem_cons, List.mem_singleton] at hd ⊢
        tauto
      · rcases hex with ⟨w, hw, hwS⟩
        refine ⟨w, ?_, hwS⟩
        simp only [List.mem_append, List.mem_cons, List.mem_singleton] at hw ⊢
        tauto

theorem antichain_map_refs (f : AIGCut → AIGCut) (hf : ∀ c, (f c).refs = c.refs) :
    ∀ (l : List AIGCut), CutsAntichain l → CutsAntichain (l.map f) := by
  intro l h
  rw [CutsAntichain] at h ⊢
  apply List.Pairwise.map
  · intro a b hab
    rw [hf a, hf b]
    exact hab
  · exact h

/-- Claim C5, amended.  The claim asserted that after dominance filtering no
stored cut is a strict subset of another and that equal leaf sets always keep
exactly one representative; the second half fails when the shared leaf set is
itself strictly dominated (see the counterexample), in which case every copy is
removed.  Amended statement: (i) the cut list stored at the processed node is
an antichain under leaf-set inclusion (hence no strict subsets and no
duplicates); (ii) the dominance filter always returns an antichain; (iii) at
most one cut with any given leaf set survives; (iv) if some candidate has leaf
set `S` and no candidate's leaf set is a strict subset of `S`, then exactly one
cut with leaf set `S` is retained. -/
theorem claim_C5 :
    (∀ (ns : List AIGNode) (i : Nat),
      CutsAntichain ((List.getD (loopdeloop_step ns i) i AIGNode.dflt).cuts)) ∧
    (∀ l : List AIGCut, CutsAntichain (dominance_filter [] l)) ∧
    (∀ (l : List AIGCut) (S : Finset AIGRef),
      (dominance_filter [] l).countP (fun c => decide (c.refs = S)) ≤ 1) ∧
    (∀ (l : List AIGCut) (S : Finset AIGRef),
      (∃ c ∈ l, c.refs = S) → (∀ d ∈ l, ¬(d.refs ⊂ S)) →
      (dominance_filter [] l).countP (fun c => decide (c.refs = S)) = 1) := by
  have hfilter : ∀ l : List AIGCut, CutsAntichain (dominance_filter [] l) := by
    intro l
    apply dominance_filter_antichain
    · exact List.Pairwise.nil
    · intro a ha
      exact absurd ha (List.not_mem_nil a)
  refine ⟨?_, hfilter, ?_, ?_⟩
  · intro ns i
    by_cases h : i < ns.length
    · simp only [loopdeloop_step]
      rw [getD_set_self _ _ _ _ h]
      show CutsAntichain (List.map _ (List.map _ (dominance_filter [] _)))
      refine antichain_map_refs _ ?_ _ (antichain_map_refs _ ?_ _ (hfilter _)) <;>
        exact fun c => rfl
    · simp only [loopdeloop_step]
      rw [set_out _ _ _ (Nat.le_of_not_lt h), getD_out _ _ _ (Nat.le_of_not_lt h)]
      exact List.Pairwise.nil
  · intro l S
    exact antichain_countP_le_one S _ (hfilter l)
  · intro l S hex hns
    have hle := antichain_countP_le_one S _ (hfilter l)
    have hpos : 0 < (dominance_filter [] l).countP (fun c => decide (c.refs = S)) := by
      rcases dominance_filter_exists_rep l [] S (by simpa using hns) (by simpa using hex) with
        ⟨c, hc, hcS⟩
      exact List.countP_pos.mpr ⟨c, hc, by simpa using hcS⟩
    exact Nat.le_antisymm hle hpos

/-- Counterexample for C5 as stated: the candidate list
`[{PI0, PI1}, {PI0, PI1}, {PI0}]` contains two cuts with equal leaf set
`{PI0, PI1}`, yet zero (not one) cuts with that leaf set are retained, because
the strict subset `{PI0}` also removes both copies. -/
theorem claim_C5_counterexample :
    [cutP01, cutP01, cutP0].countP (fun c => decide (c.refs = cutP01.refs)) = 2 ∧
    (dominance_filter [] [cutP01, cutP01, cutP0]).countP
      (fun c => decide (c.refs = cutP01.refs)) = 0 := by
  decide

/-- Witness for the amended C5 on a concrete duplicate list. -/
theorem claim_C5_witness :
    (∃ c ∈ [cutP01, cutP01], c.refs = cutP01.refs) ∧
    (∀ d ∈ [cutP01, cutP01], ¬(d.refs ⊂ cutP01.refs)) ∧
    (dominance_filter [] [cutP01, cutP01]).countP
      (fun c => decide (c.refs = cutP01.refs)) = 1 :=
  ⟨by decide, by decide,
    claim_C5.2.2.2 [cutP01, cutP01] cutP01.refs (by decide) (by decide)⟩

/-- Claim C6, amended.  The claim asserted that two cuts with equal leaf sets
remove each other so that neither is retained; in fact the removal loop drops
the earlier copy and then finds no dominator left for the later copy, so at
most one survives — exactly one when no strict subset of that leaf set is
among the candidates (and zero when there is one, since a strict subset
dominates every copy). -/
theorem claim_C6 (l : List AIGCut) (S : Finset AIGRef)
    (hdup : 1 < l.countP (fun c => decide (c.refs = S))) :
    (dominance_filter [] l).countP (fun c => decide (c.refs = S)) ≤ 1 ∧
    ((∀ d ∈ l, ¬(d.refs ⊂ S)) →
      (dominance_filter [] l).countP (fun c => decide (c.refs = S)) = 1) := by
  have hfilter : CutsAntichain (dominance_filter [] l) := by
    apply dominance_filter_antichain
    · exact List.Pairwise.nil
    · intro a ha
      exact absurd ha (List.not_mem_nil a)
  have hle := antichain_countP_le_one S _ hfilter
  refine ⟨hle, ?_⟩
  intro hns
  have hex : ∃ c ∈ l, c.refs = S := by
    rcases List.countP_pos.mp (Nat.lt_of_lt_of_le Nat.zero_lt_one (Nat.le_of_lt hdup)) with
      ⟨c, hc, hcS⟩
    exact ⟨c, hc, by simpa using hcS⟩
  have hpos : 0 < (dominance_filter [] l).countP (fun c => decide (c.refs = S)) := by
    rcases dominance_filter_exists_rep l [] S (by simpa using hns) (by simpa using hex) with
      ⟨c, hc, hcS⟩
    exact List.countP_pos.mpr ⟨c, hc, by simpa using hcS⟩
  exact Nat.le_antisymm hle hpos

/-- Counterexample for C6 as stated: on the candidate list with two copies of
the cut `{PI0, PI1}`, the filter retains exactly one copy — not zero. -/
theorem claim_C6_counterexample :
    dominance_filter [] [cutP01, cutP01] = [cutP01] ∧
    dominance_filter [] [cutP01, cutP01] ≠ [] := by
  decide

/-- Witness for the amended C6 on a concrete duplicate list. -/
theorem claim_C6_witness :
    1 < [cutP01, cutP01].countP (fun c => decide (c.refs = cutP01.refs)) ∧
    ((dominance_filter [] [cutP01, cutP01]).countP
        (fun c => decide (c.refs = cutP01.refs)) ≤ 1 ∧
      ((∀ d ∈ [cutP01, cutP01], ¬(d.refs ⊂ cutP01.refs)) →
        (dominance_filter [] [cutP01, cutP01]).countP
          (fun c => decide (c.refs = cutP01.refs)) = 1)) :=
  ⟨by decide, claim_C6 [cutP01, cutP01] cutP01.refs (by decide)⟩

/-! ### Netlist lowering: acyclicity by construction -/

theorem bind_eq_some' {α β : Type} (x : Option α) (f : α → Option β) (b : β) :
    (do let a ← x; f a) = some b ↔ ∃ a, x = some a ∧ f a = some b := by
  cases x <;> simp

theorem getD_append_left {α : Type} (d : α) :
    ∀ (l1 l2 : List α) (i : Nat), i < l1.length → (l1 ++ l2).getD i d = l1.getD i d := by
  intro l1
  induction l1 with
  | nil => intro l2 i h; exact absurd h (Nat.not_lt_zero _)
  | cons a t ih =>
    intro l2 i h
    cases i with
    | zero => rfl
    | succ n => exact ih l2 n (Nat.lt_of_succ_lt_succ h)

theorem getD_append_self {α : Type} (d : α) :
    ∀ (l : List α) (v : α), (l ++ [v]).getD l.length d = v := by
  intro l
  induction l with
  | nil => intro v; rfl
  | cons a t ih => intro v; exact ih v

theorem acyclic_append (ns : List AIGNode) (n : AIGNode) (h : Acyclic ns)
    (h0 : n.inp0.pi = true ∨ n.inp0.idx < ns.length)
    (h1 : n.inp1.pi = true ∨ n.inp1.idx < ns.length) :
    Acyclic (ns ++ [n]) := by
  intro i hi
  rw [List.length_append] at hi
  simp only [List.length_cons, List.length_nil] at hi
  rcases Nat.lt_or_ge i ns.length with hlt | hge
  · rw [getD_append_left _ _ _ _ hlt]
    exact h i hlt
  · have hieq : i = ns.length := Nat.le_antisymm (Nat.le_of_lt_succ hi) hge
    subst hieq
    rw [getD_append_self]
    constructor
    · intro hpi
      rcases h0 with hh | hh
      · rw [hpi] at hh
        exact absurd hh (by simp)
      · exact hh
    · intro hpi
      rcases h1 with hh | hh
      · rw [hpi] at hh
        exact absurd hh (by simp)
      · exact hh

theorem process_input_spec (pc : String → Cell → List AIGNode → Option (List AIGNode × AIGRef))
    (nets : List (Nat × NetAttrs)) (pimap : List (Nat × Nat)) (bit : Nat)
    (hpc : ∀ name cell, ProcSpec (pc name cell)) :
    ProcSpec (process_input pc nets pimap bit) := by
  intro ns ns' r h
  simp only [process_input, bind_eq_some'] at h
  rcases h with ⟨net, _, h⟩
  by_cases hin : net.input
  · rw [if_pos hin] at h
    simp only [bind_eq_some', Option.some.injEq] at h
    rcases h with ⟨pi_idx, _, h⟩
    rw [Prod.mk.injEq] at h
    refine ⟨⟨[], by simp [h.1]⟩, ?_, ?_⟩
    · rw [← h.1]
      exact id
    · left
      rw [← h.2]
      rfl
  · rw [if_neg hin] at h
    simp only [bind_eq_some'] at h
    rcases h with ⟨driver, _, h⟩
    exact hpc _ _ ns ns' r h

theorem process_cell_spec (nets : List (Nat × NetAttrs)) (pimap : List (Nat × Nat)) :
    ∀ (fuel : Nat) (name : String) (cell : Cell),
      ProcSpec (process_cell fuel nets pimap name cell) := by
  intro fuel
  induction fuel with
  | zero =>
    intro name cell ns ns' r h
    exact absurd h (by simp [process_cell])
  | succ fuel ih =>
    intro cellname cell ns ns' r h
    have hpin : ∀ bit, ProcSpec (process_input (process_cell fuel nets pimap) nets pimap bit) :=
      fun bit => process_input_spec _ nets pimap bit (fun nm c => ih nm c)
    have hmono : ∀ (x : AIGRef) (xs e : List AIGNode),
        (x.pi = true ∨ x.idx < xs.length) → (x.pi = true ∨ x.idx < (xs ++ e).length) := by
      intro x xs e hx
      rcases hx with hx | hx
      · exact Or.inl hx
      · exact Or.inr (lt_of_lt_of_le hx (by simp))
    have hstep : ∀ (xs : List AIGNode) (x y : AIGRef) (nm : String),
        (x.pi = true ∨ x.idx < xs.length) → (y.pi = true ∨ y.idx < xs.length) →
        Acyclic xs → Acyclic (xs ++ [AIGNode.new x y nm]) := by
      intro xs x y nm hx hy hA
      exact acyclic_append xs (AIGNode.new x y nm) hA hx hy
    simp only [process_cell] at h
    split at h
    · -- BUF
      simp only [bind_eq_some'] at h
      rcases h with ⟨ca, _, h⟩
      exact hpin ca ns ns' r h
    · -- NOT
      simp only [bind_eq_some'] at h
      rcases h with ⟨ca, _, h⟩
      rcases h with ⟨⟨ns1, r0⟩, h1, h⟩
      simp only [Option.some.injEq, Prod.mk.injEq] at h
      obtain ⟨hns', hr⟩ := h
      obtain ⟨hext1, hacy1, hr1⟩ := hpin ca ns ns1 r0 h1
      subst hns'
      refine ⟨hext1, hacy1, ?_⟩
      rw [← hr]
      exact hr1
    · -- AND
      simp only [bind_eq_some'] at h
      rcases h with ⟨ca, _, h⟩
      rcases h with ⟨⟨ns1, a⟩, h1, h⟩
      simp only [bind_eq_some'] at h
      rcases h with ⟨cb, _, h⟩
      rcases h with ⟨⟨ns2, b⟩, h2, h⟩
      simp only [add_cell, Option.some.injEq, Prod.mk.injEq] at h
      obtain ⟨hns', hr⟩ := h
      obtain ⟨⟨e1, he1⟩, hacy1, hr1⟩ := hpin ca ns ns1 a h1
      obtain ⟨⟨e2, he2⟩, hacy2, hr2⟩ := hpin cb ns1 ns2 b h2
      have hx1 : a.pi = true ∨ a.idx < ns2.length := by
        rw [he2]
        exact hmono a ns1 e2 hr1
      refine ⟨⟨e1 ++ e2 ++ [AIGNode.new a b cellname], by rw [← hns', he2, he1]; simp⟩, ?_, ?_⟩
      · intro hA
        rw [← hns']
        exact hstep ns2 a b cellname hx1 hr2 (hacy2 (hacy1 hA))
      · rw [← hns', ← hr]
        right
        simp [AIGRef.new, AIGRef.inv]
    · -- OR
      simp only [bind_eq_some'] at h
      rcases h with ⟨ca, _, h⟩
      rcases h with ⟨⟨ns1, a⟩, h1, h⟩
      simp only [bind_eq_some'] at h
      rcases h with ⟨cb, _, h⟩
      rcases h with ⟨⟨ns2, b⟩, h2, h⟩
      simp only [add_cell, Option.some.injEq, Prod.mk.injEq] at h
      obtain ⟨hns', hr⟩ := h
      obtain ⟨⟨e1, he1⟩, hacy1, hr1⟩ := hpin ca ns ns1 a h1
      obtain ⟨⟨e2, he2⟩, hacy2, hr2⟩ := hpin cb ns1 ns2 b h2
      have hx1 : a.pi = true ∨ a.idx < ns2.length := by
        rw [he2]
        exact hmono a ns1 e2 hr1
      refine ⟨⟨e1 ++ e2 ++ [AIGNode.new a.inv b.inv cellname],
        by rw [← hns', he2, he1]; simp⟩, ?_, ?_⟩
      · intro hA
        rw [← hns']
        exact hstep ns2 a.inv b.inv cellname hx1 hr2 (hacy2 (hacy1 hA))
      · rw [← hns', ← hr]
        right
        simp [AIGRef.new, AIGRef.inv]
    · -- NAND
      simp only [bind_eq_some'] at h
      rcases h with ⟨ca, _, h⟩
      rcases h with ⟨⟨ns1, a⟩, h1, h⟩
      simp only [bind_eq_some'] at h
      rcases h with ⟨cb, _, h⟩
      rcases h with ⟨⟨ns2, b⟩, h2, h⟩
      simp only [add_cell, Option.some.injEq, Prod.mk.injEq] at h
      obtain ⟨hns', hr⟩ := h
      obtain ⟨⟨e1, he1⟩, hacy1, hr1⟩ := hpin ca ns ns1 a h1
      obtain ⟨⟨e2, he2⟩, hacy2, hr2⟩ := hpin cb ns1 ns2 b h2
      have hx1 : a.pi = true ∨ a.idx < ns2.length := by
        rw [he2]
        exact hmono a ns1 e2 hr1
      refine ⟨⟨e1 ++ e2 ++ [AIGNode.new a b cellname], by rw [← hns', he2, he1]; simp⟩, ?_, ?_⟩
      · intro hA
        rw [← hns']
        exact hstep ns2 a b cellname hx1 hr2 (hacy2 (hacy1 hA))
      · rw [← hns', ← hr]
        right
        simp [AIGRef.new, AIGRef.inv]
    · -- NOR
      simp only [bind_eq_some'] at h
      rcases h with ⟨ca, _, h⟩
      rcases h with ⟨⟨ns1, a⟩, h1, h⟩
      simp only [bind_eq_some'] at h
      rcases h with ⟨cb, _, h⟩
      rcases h with ⟨⟨ns2, b⟩, h2, h⟩
      simp only [add_cell, Option.some.injEq, Prod.mk.injEq] at h
      obtain ⟨hns', hr⟩ := h
      obtain ⟨⟨e1, he1⟩, hacy1, hr1⟩ := hpin ca ns ns1 a h1
      obtain ⟨⟨e2, he2⟩, hacy2, hr2⟩ := hpin cb ns1 ns2 b h2
      have hx1 : a.pi = true ∨ a.idx < ns2.length := by
        rw [he2]
        exact hmono a ns1 e2 hr1
      refine ⟨⟨e1 ++ e2 ++ [AIGNode.new a.inv b.inv cellname],
        by rw [← hns', he2, he1]; simp⟩, ?_, ?_⟩
      · intro hA
        rw [← hns']
        exact hstep ns2 a.inv b.inv cellname hx1 hr2 (hacy2 (hacy1 hA))
      · rw [← hns', ← hr]
        right
        simp [AIGRef.new, AIGRef.inv]
    · -- XOR
      simp only [bind_eq_some'] at h
      rcases h with ⟨ca, _, h⟩
      rcases h with ⟨⟨ns1, a⟩, h1, h⟩
      simp only [bind_eq_some'] at h
      rcases h with ⟨cb, _, h⟩
      rcases h with ⟨⟨ns2, b⟩, h2, h⟩
      simp only [add_cell, Option.some.injEq, Prod.mk.injEq] at h
      obtain ⟨hns', hr⟩ := h
      obtain ⟨⟨e1, he1⟩, hacy1, hr1⟩ := hpin ca ns ns1 a h1
      obtain ⟨⟨e2, he2⟩, hacy2, hr2⟩ := hpin cb ns1 ns2 b h2
      have hx1 : a.pi = true ∨ a.idx < ns2.length := by
        rw [he2]
        exact hmono a ns1 e2 hr1
      refine ⟨⟨e1 ++ e2 ++ [AIGNode.new a b.inv (cellname ++ "_n1"),
          AIGNode.new a.inv b (cellname ++ "_n2"),
          AIGNode.new (AIGRef.new ns2.length false false).inv
            (AIGRef.new (ns2 ++ [AIGNode.new a b.inv (cellname ++ "_n1")]).length
              false false).inv (cellname ++ "_n3")],
        by rw [← hns', he2, he1]; simp⟩, ?_, ?_⟩
      · intro hA
        rw [← hns']
        apply hstep
        · right
          simp [AIGRef.new, AIGRef.inv]
        · right
          simp [AIGRef.new, AIGRef.inv]
        apply hstep
        · exact hmono a ns2 _ hx1
        · exact hmono b ns2 _ hr2
        exact hstep ns2 a b.inv (cellname ++ "_n1") hx1 hr2 (hacy2 (hacy1 hA))
      · rw [← hns', ← hr]
        right
        simp [AIGRef.new, AIGRef.inv]
    · -- XNOR
      simp only [bind_eq_some'] at h
      rcases h with ⟨ca, _, h⟩
      rcases h with ⟨⟨ns1, a⟩, h1, h⟩
      simp only [bind_eq_some'] at h
      rcases h with ⟨cb, _, h⟩
      rcases h with ⟨⟨ns2, b⟩, h2, h⟩
      simp only [add_cell, Option.some.injEq, Prod.mk.injEq] at h
      obtain ⟨hns', hr⟩ := h
      obtain ⟨⟨e1, he1⟩, hacy1, hr1⟩ := hpin ca ns ns1 a h1
      obtain ⟨⟨e2, he2⟩, hacy2, hr2⟩ := hpin cb ns1 ns2 b h2
      have hx1 : a.pi = true ∨ a.idx < ns2.length := by
        rw [he2]
        exact hmono a ns1 e2 hr1
      refine ⟨⟨e1 ++ e2 ++ [AIGNode.new a b.inv (cellname ++ "_n1"),
          AIGNode.new a.inv b (cellname ++ "_n2"),
          AIGNode.new (AIGRef.new ns2.length false false).inv
            (AIGRef.new (ns2 ++ [AIGNode.new a b.inv (cellname ++ "_n1")]).length
              false false).inv (cellname ++ "_n3")],
        by rw [← hns', he2, he1]; simp⟩, ?_, ?_⟩
      · intro hA
        rw [← hns']
        apply hstep
        · right
          simp [AIGRef.new, AIGRef.inv]
        · right
          simp [AIGRef.new, AIGRef.inv]
        apply hstep
        · exact hmono a ns2 _ hx1
        · exact hmono b ns2 _ hr2
        exact hstep ns2 a b.inv (cellname ++ "_n1") hx1 hr2 (hacy2 (hacy1 hA))
      · rw [← hns', ← hr]
        right
        simp [AIGRef.new, AIGRef.inv]
    · -- ANDNOT
      simp only [bind_eq_some'] at h
      rcases h with ⟨ca, _, h⟩
      rcases h with ⟨⟨ns1, a⟩, h1, h⟩
      simp only [bind_eq_some'] at h
      rcases h with ⟨cb, _, h⟩
      rcases h with ⟨⟨ns2, b⟩, h2, h⟩
      simp only [add_cell, Option.some.injEq, Prod.mk.injEq] at h
      obtain ⟨hns', hr⟩ := h
      obtain ⟨⟨e1, he1⟩, hacy1, hr1⟩ := hpin ca ns ns1 a h1
      obtain ⟨⟨e2, he2⟩, hacy2, hr2⟩ := hpin cb ns1 ns2 b h2
      have hx1 : a.pi = true ∨ a.idx < ns2.length := by
        rw [he2]
        exact hmono a ns1 e2 hr1
      refine ⟨⟨e1 ++ e2 ++ [AIGNode.new a b.inv cellname],
        by rw [← hns', he2, he1]; simp⟩, ?_, ?_⟩
      · intro hA
        rw [← hns']
        exact hstep ns2 a b.inv cellname hx1 hr2 (hacy2 (hacy1 hA))
      · rw [← hns', ← hr]
        right
        simp [AIGRef.new, AIGRef.inv]
    · -- ORNOT
      simp only [bind_eq_some'] at h
      rcases h with ⟨ca, _, h⟩
      rcases h with ⟨⟨ns1, a⟩, h1, h⟩
      simp only [bind_eq_some'] at h
      rcases h with ⟨cb, _, h⟩
      rcases h with ⟨⟨ns2, b⟩, h2, h⟩
      simp only [add_cell, Option.some.injEq, Prod.mk.injEq] at h
      obtain ⟨hns', hr⟩ := h
      obtain ⟨⟨e1, he1⟩, hacy1, hr1⟩ := hpin ca ns ns1 a h1
      obtain ⟨⟨e2, he2⟩, hacy2, hr2⟩ := hpin cb ns1 ns2 b h2
      have hx1 : a.pi = true ∨ a.idx < ns2.length := by
        rw [he2]
        exact hmono a ns1 e2 hr1
      refine ⟨⟨e1 ++ e2 ++ [AIGNode.new a.inv b cellname],
        by rw [← hns', he2, he1]; simp⟩, ?_, ?_⟩
      · intro hA
        rw [← hns']
        exact hstep ns2 a.inv b cellname hx1 hr2 (hacy2 (hacy1 hA))
      · rw [← hns', ← hr]
        right
        simp [AIGRef.new, AIGRef.inv]
    · -- unknown cell type
      exact absurd h (by simp)

theorem foldlM_preserve {α σ : Type} (P : σ → Prop) (f : σ → α → Option σ)
    (hf : ∀ s a s2, f s a = some s2 → P s → P s2) :
    ∀ (l : List α) (s s' : σ), l.foldlM f s = some s' → P s → P s' := by
  intro l
  induction l with
  | nil =>
    intro s s' h hP
    simp only [List.foldlM_nil, Option.pure_def, Option.some.injEq] at h
    rw [← h]
    exact hP
  | cons a t ih =>
    intro s s' h hP
    rw [List.foldlM_cons] at h
    simp only [bind_eq_some'] at h
    rcases h with ⟨s2, h2, h⟩
    exact ih s2 s' h (hf s a s2 h2 hP)

theorem output_step_acyclic (nets3 : List (Nat × NetAttrs)) (pimap : List (Nat × Nat))
    (fuelN : Nat) (s : List AIGNode × List (String × AIGRef)) (p : String × Port)
    (s2 : List AIGNode × List (String × AIGRef))
    (hstep : (do
      let (nodes, po) := s
      match p.2.bits with
      | [BitVal.n bitidx] =>
        if p.2.direction == PortDirection.output then do
          let attr ← alistGet nets3 bitidx
          if attr.input then none
          else
            match attr.name with
            | some nm =>
              if nm == p.1 then do
                let cell ← attr.driver
                let (nodes, po_aigref) ←
                  process_cell fuelN nets3 pimap p.1 cell nodes
                some (nodes, po ++ [(p.1, po_aigref)])
              else none
            | none => none
        else some s
      | _ => none) = some s2) (hA : Acyclic s.1) : Acyclic s2.1 := by
  rcases s with ⟨ns0, po0⟩
  rcases p with ⟨pname, pdir, pbits⟩
  match pbits with
  | [] => exact absurd hstep (by simp)
  | BitVal.s v :: rest => exact absurd hstep (by simp)
  | BitVal.n bitidx :: bv :: rest => exact absurd hstep (by simp)
  | [BitVal.n bitidx] =>
    simp only at hstep
    by_cases hdir : (pdir == PortDirection.output) = true
    · rw [if_pos hdir] at hstep
      simp only [bind_eq_some'] at hstep
      rcases hstep with ⟨attr, _, hstep⟩
      by_cases hinp : attr.input = true
      · rw [if_pos hinp] at hstep
        exact absurd hstep (by simp)
      · rw [if_neg hinp] at hstep
        cases hnm : attr.name with
        | none =>
          rw [hnm] at hstep
          dsimp only at hstep
          exact absurd hstep (by simp)
        | some nm =>
          rw [hnm] at hstep
          dsimp only at hstep
          by_cases heq : (nm == pname) = true
          · rw [if_pos heq] at hstep
            simp only [bind_eq_some'] at hstep
            rcases hstep with ⟨cell, _, hstep⟩
            rcases hstep with ⟨⟨ns2, ref⟩, hpc, hstep⟩
            simp only [Option.some.injEq] at hstep
            rw [← hstep]
            exact (process_cell_spec nets3 pimap _ _ _ _ _ _ hpc).2.1 hA
          · rw [if_neg heq] at hstep
            exact absurd hstep (by simp)
    · rw [if_neg hdir] at hstep
      simp only [Option.some.injEq] at hstep
      rw [← hstep]
      exact hA

/-- Claim C2: in every AIG produced by netlist lowering, each non-PI fan-in
edge of an AND node refers to a node with a strictly smaller index (the node
store is append-only and acyclic by construction). -/
theorem claim_C2 (netlist : Netlist) (aig : AIG) (h : parse_netlist netlist = some aig) :
    Acyclic aig.nodes := by
  rw [parse_netlist] at h
  split at h
  swap
  · exact absurd h (by simp)
  simp only [bind_eq_some'] at h
  rcases h with ⟨tm, htm, h⟩
  simp only [Option.some.injEq] at htm
  rcases h with ⟨nets1, _, h⟩
  rcases h with ⟨nets2, _, h⟩
  rcases h with ⟨⟨nets3, pis, pimap⟩, _, h⟩
  simp only [bind_eq_some'] at h
  rcases h with ⟨⟨nodes, po⟩, hfold, h⟩
  simp only [Option.some.injEq] at h
  have hacy : Acyclic nodes := by
    have hinit : Acyclic ([] : List AIGNode) := by
      intro i hi
      exact absurd hi (by simp)
    exact foldlM_preserve (fun st : List AIGNode × List (String × AIGRef) => Acyclic st.1)
      _ (fun s a s2 hss hPs =>
        output_step_acyclic nets3 pimap (tm.cells.length + 1) s a s2 hss hPs)
      _ _ _ hfold hinit
  rw [← h]
  exact hacy

/-- Witness for C2 on the XOR module. -/
theorem claim_C2_witness :
    parse_netlist xorNetlist = some aigXor ∧ Acyclic aigXor.nodes :=
  ⟨by decide, claim_C2 xorNetlist aigXor (by decide)⟩

/-! ### Topological order: helper lemmas -/

theorem bind_some' {α β : Type} (x : α) (f : α → Option β) :
    (do let a ← some x; f a) = f x := rfl

theorem getD_map_lt (f : AIGNode → AIGNode) :
    ∀ (l : List AIGNode) (i : Nat), i < l.length →
      (l.map f).getD i AIGNode.dflt = f (l.getD i AIGNode.dflt) := by
  intro l
  induction l with
  | nil => intro i h; exact absurd h (Nat.not_lt_zero _)
  | cons a t ih =>
    intro i h
    cases i with
    | zero => rfl
    | succ n => exact ih n (Nat.lt_of_succ_lt_succ h)

theorem getElem?_eq_getD {α : Type} (d : α) :
    ∀ (l : List α) (i : Nat), i < l.length → l[i]? = some (l.getD i d) := by
  intro l
  induction l with
  | nil => intro i h; exact absurd h (Nat.not_lt_zero _)
  | cons a t ih =>
    intro i h
    cases i with
    | zero => simp [List.getD]
    | succ n => simpa [List.getD] using ih n (Nat.lt_of_succ_lt_succ h)

theorem getD_mem {α : Type} (d : α) :
    ∀ (l : List α) (u : Nat), u < l.length → l.getD u d ∈ l := by
  intro l
  induction l with
  | nil => intro u h; exact absurd h (Nat.not_lt_zero _)
  | cons a t ih =>
    intro u h
    cases u with
    | zero => exact List.mem_cons_self _ _
    | succ n => exact List.mem_cons_of_mem _ (ih n (Nat.lt_of_succ_lt_succ h))

theorem mem_getD {α : Type} (d : α) :
    ∀ (l : List α) (j : α), j ∈ l → ∃ u, u < l.length ∧ l.getD u d = j := by
  intro l
  induction l with
  | nil => intro j hj; exact absurd hj (List.not_mem_nil j)
  | cons a t ih =>
    intro j hj
    rcases List.mem_cons.mp hj with hj | hj
    · exact ⟨0, by simp, hj.symm⟩
    · rcases ih j hj with ⟨u, hu, hju⟩
      exact ⟨u + 1, by simpa using hu, hju⟩

theorem ext_of_getD {α : Type} (d : α) :
    ∀ (l1 l2 : List α), l1.length = l2.length →
      (∀ i, i < l1.length → l1.getD i d = l2.getD i d) → l1 = l2 := by
  intro l1
  induction l1 with
  | nil =>
    intro l2 hlen _
    cases l2 with
    | nil => rfl
    | cons b t => exact absurd hlen (by simp)
  | cons a t ih =>
    intro l2 hlen hget
    cases l2 with
    | nil => exact absurd hlen (by simp)
    | cons b t2 =>
      have h0 := hget 0 (by simp)
      simp [List.getD] at h0
      rw [h0]
      rw [ih t2 (by simpa using hlen)
        (fun i hi => by simpa [List.getD] using hget (i + 1) (by simpa using hi))]

theorem eqbf_fields (a b : AIGNode)
    (h : ({ a with num_fanouts := 0 } : AIGNode) = { b with num_fanouts := 0 }) :
    a.inp0 = b.inp0 ∧ a.inp1 = b.inp1 := by
  constructor
  · simpa using congrArg AIGNode.inp0 h
  · simpa using congrArg AIGNode.inp1 h

theorem reachFrom_trans (base : List AIGNode) (i j k : Nat)
    (h1 : ReachFrom base i j) (h2 : ReachFrom base j k) : ReachFrom base i k := by
  induction h2 with
  | refl => exact h1
  | fanin0 m hm hpi ih => exact ReachFrom.fanin0 m ih hpi
  | fanin1 m hm hpi ih => exact ReachFrom.fanin1 m ih hpi

theorem reachFrom_le (base : List AIGNode) (hacy : Acyclic base) :
    ∀ i j, ReachFrom base i j → i < base.length → j ≤ i ∧ j < base.length := by
  intro i j h hi
  induction h with
  | refl => exact ⟨Nat.le_refl _, hi⟩
  | fanin0 m hm hpi ih =>
    rcases ih with ⟨hle, hlt⟩
    have := (hacy m hlt).1 hpi
    exact ⟨Nat.le_of_lt (Nat.lt_of_lt_of_le this hle), Nat.lt_of_lt_of_le this (Nat.le_of_lt hlt)⟩
  | fanin1 m hm hpi ih =>
    rcases ih with ⟨hle, hlt⟩
    have := (hacy m hlt).2 hpi
    exact ⟨Nat.le_of_lt (Nat.lt_of_lt_of_le this hle), Nat.lt_of_lt_of_le this (Nat.le_of_lt hlt)⟩

theorem bool_eq_false {b : Bool} (h : ¬(b = true)) : b = false := by
  cases b
  · rfl
  · exact absurd rfl h

theorem topo_visit_spec (base : List AIGNode) (hacy : Acyclic base) :
    ∀ (fuel : Nat) (ns : List AIGNode) (ord : List Nat) (r : AIGRef),
      TopoInv base ns ord →
      (r.pi = true ∨ r.idx < base.length) →
      (r.pi = false → r.idx + 2 ≤ fuel) →
      (r.pi = true → 1 ≤ fuel) →
      ∃ ns2 Δ, _topo_visit fuel ns ord r = some (ns2, ord ++ Δ) ∧
        TopoInv base ns2 (ord ++ Δ) ∧
        (∀ j ∈ Δ, ReachFrom base r.idx j ∧ r.pi = false) ∧
        (r.pi = false → r.idx ∈ ord ++ Δ) := by
  intro fuel
  induction fuel with
  | zero =>
    intro ns ord r _ _ hf hf1
    by_cases hpi : r.pi = true
    · exact absurd (hf1 hpi) (by omega)
    · exact absurd (hf (bool_eq_false hpi)) (by omega)
  | succ fuel ih =>
    intro ns ord r hinv hval hf hf1
    obtain ⟨hebf, hbounds, hnodup, hmarks, hfb⟩ := hinv
    by_cases hpi : r.pi = true
    · refine ⟨ns, [], ?_, ?_, ?_, ?_⟩
      · simp only [_topo_visit]
        rw [if_pos hpi, List.append_nil]
      · rw [List.append_nil]
        exact ⟨hebf, hbounds, hnodup, hmarks, hfb⟩
      · intro j hj
        exact absurd hj (List.not_mem_nil j)
      · intro hc
        rw [hc] at hpi
        exact absurd hpi (by simp)
    · have hpf : r.pi = false := bool_eq_false hpi
      have hrlen : r.idx < base.length := by
        rcases hval with h | h
        · exact absurd h hpi
        · exact h
      have hnslen : r.idx < ns.length := by
        rw [hebf.1]
        exact hrlen
      have hget : ns[r.idx]? = some (ns.getD r.idx AIGNode.dflt) :=
        getElem?_eq_getD AIGNode.dflt ns r.idx hnslen
      obtain ⟨hb0, hb1⟩ := eqbf_fields _ _ (hebf.2 r.idx)
      by_cases hmark : (ns.getD r.idx AIGNode.dflt).num_fanouts > 0
      · have hmem : r.idx ∈ ord := (hmarks r.idx hrlen).mp (by omega)
        refine ⟨ns, [], ?_, ?_, ?_, ?_⟩
        · simp only [_topo_visit]
          rw [if_neg (by simp [hpf]), hget]
          dsimp only
          rw [if_pos hmark, List.append_nil]
        · rw [List.append_nil]
          exact ⟨hebf, hbounds, hnodup, hmarks, hfb⟩
        · intro j hj
          exact absurd hj (List.not_mem_nil j)
        · intro _
          rw [List.append_nil]
          exact hmem
      · have hmark0 : (ns.getD r.idx AIGNode.dflt).num_fanouts = 0 := by omega
        -- the strict-decrease facts at node r.idx
        have hidx0 : (base.getD r.idx AIGNode.dflt).inp0.pi = false →
            (base.getD r.idx AIGNode.dflt).inp0.idx < r.idx := (hacy r.idx hrlen).1
        have hidx1 : (base.getD r.idx AIGNode.dflt).inp1.pi = false →
            (base.getD r.idx AIGNode.dflt).inp1.idx < r.idx := (hacy r.idx hrlen).2
        have hfr : r.idx + 2 ≤ fuel + 1 := hf hpf
        -- visit fan-in 0
        have hval0 : (ns.getD r.idx AIGNode.dflt).inp0.pi = true ∨
            (ns.getD r.idx AIGNode.dflt).inp0.idx < base.length := by
          rw [hb0]
          by_cases hp : (base.getD r.idx AIGNode.dflt).inp0.pi = true
          · exact Or.inl hp
          · exact Or.inr (Nat.lt_trans (hidx0 (bool_eq_false hp)) hrlen)
        have hfuel0 : (ns.getD r.idx AIGNode.dflt).inp0.pi = false →
            (ns.getD r.idx AIGNode.dflt).inp0.idx + 2 ≤ fuel := by
          rw [hb0]
          intro hp
          have := hidx0 hp
          omega
        obtain ⟨ns1, Δ0, he0, hinv1, hΔ0, hm0⟩ :=
          ih ns ord ((ns.getD r.idx AIGNode.dflt).inp0)
            ⟨hebf, hbounds, hnodup, hmarks, hfb⟩ hval0 hfuel0 (fun _ => by omega)
        obtain ⟨hebf1, hbounds1, hnodup1, hmarks1, hfb1⟩ := hinv1
        obtain ⟨hb0two, hb1two⟩ := eqbf_fields _ _ (hebf1.2 r.idx)
        -- visit fan-in 1, read from the updated list
        have hval1 : (ns1.getD r.idx AIGNode.dflt).inp1.pi = true ∨
            (ns1.getD r.idx AIGNode.dflt).inp1.idx < base.length := by
          rw [hb1two]
          by_cases hp : (base.getD r.idx AIGNode.dflt).inp1.pi = true
          · exact Or.inl hp
          · exact Or.inr (Nat.lt_trans (hidx1 (bool_eq_false hp)) hrlen)
        have hfuel1 : (ns1.getD r.idx AIGNode.dflt).inp1.pi = false →
            (ns1.getD r.idx AIGNode.dflt).inp1.idx + 2 ≤ fuel := by
          rw [hb1two]
          intro hp
          have := hidx1 hp
          omega
        obtain ⟨ns2, Δ1, he1, hinv2, hΔ1, hm1⟩ :=
          ih ns1 (ord ++ Δ0) ((ns1.getD r.idx AIGNode.dflt).inp1)
            ⟨hebf1, hbounds1, hnodup1, hmarks1, hfb1⟩ hval1 hfuel1 (fun _ => by omega)
        obtain ⟨hebf2, hbounds2, hnodup2, hmarks2, hfb2⟩ := hinv2
        have hns2len : r.idx < ns2.length := by
          rw [hebf2.1]
          exact hrlen
        -- the visited node is in none of the pushed segments
        have hnot_ord : r.idx ∉ ord := by
          intro hmem
          have := (hmarks r.idx hrlen).mpr hmem
          omega
        have hnot0 : r.idx ∉ Δ0 := by
          intro hmem
          obtain ⟨hrf, hp0⟩ := hΔ0 r.idx hmem
          rw [hb0] at hrf hp0
          have hlt := hidx0 hp0
          have := reachFrom_le base hacy _ _ hrf (Nat.lt_trans hlt hrlen)
          omega
        have hnot1 : r.idx ∉ Δ1 := by
          intro hmem
          obtain ⟨hrf, hp1⟩ := hΔ1 r.idx hmem
          rw [hb1two] at hrf hp1
          have hlt := hidx1 hp1
          have := reachFrom_le base hacy _ _ hrf (Nat.lt_trans hlt hrlen)
          omega
        refine ⟨ns2.set r.idx { ns2.getD r.idx AIGNode.dflt with num_fanouts := 1 },
          Δ0 ++ (Δ1 ++ [r.idx]), ?_, ?_, ?_, ?_⟩
        · have hassoc : ord ++ (Δ0 ++ (Δ1 ++ [r.idx])) = ((ord ++ Δ0) ++ Δ1) ++ [r.idx] := by
            simp [List.append_assoc]
          rw [hassoc]
          simp only [_topo_visit]
          rw [if_neg (by simp [hpf]), hget]
          dsimp only
          rw [if_neg hmark, he0, bind_some']
          dsimp only
          rw [he1, bind_some']
        · refine ⟨⟨?_, ?_⟩, ?_, ?_, ?_, ?_⟩
          · rw [List.length_set]
            exact hebf2.1
          · intro i
            by_cases hij : r.idx = i
            · subst hij
              rw [getD_set_self _ _ _ _ hns2len]
              exact hebf2.2 r.idx
            · rw [getD_set_ne _ _ _ _ _ hij]
              exact hebf2.2 i
          · intro i hi
            simp only [List.mem_append, List.mem_singleton] at hi
            rcases hi with hi | hi | hi | hi
            · exact hbounds i hi
            · exact hbounds1 i (by simp [hi])
            · exact hbounds2 i (by simp [hi])
            · rw [hi]
              exact hrlen
          · have hnodup_all : (((ord ++ Δ0) ++ Δ1) ++ [r.idx]).Nodup := by
              rw [List.nodup_append]
              refine ⟨hnodup2, List.nodup_singleton _, ?_⟩
              intro a ha hb
              rw [List.mem_singleton] at hb
              subst hb
              simp only [List.mem_append] at ha
              rcases ha with (ha | ha) | ha
              · exact hnot_ord ha
              · exact hnot0 ha
              · exact hnot1 ha
            have : ((ord ++ Δ0) ++ Δ1) ++ [r.idx] = ord ++ (Δ0 ++ (Δ1 ++ [r.idx])) := by
              simp [List.append_assoc]
            rw [← this]
            exact hnodup_all
          · intro i hilen
            by_cases hij : r.idx = i
            · subst hij
              rw [getD_set_self _ _ _ _ hns2len]
              constructor
              · intro _
                simp
              · intro _
                simp
            · rw [getD_set_ne _ _ _ _ _ hij]
              have hiff := hmarks2 i hilen
              constructor
              · intro hne
                have hmem := hiff.mp hne
                simp only [List.mem_append] at hmem
                simp only [List.mem_append]
                rcases hmem with (hm | hm) | hm
                · exact Or.inl hm
                · exact Or.inr (Or.inl hm)
                · exact Or.inr (Or.inr (Or.inl hm))
              · intro hmem
                apply hiff.mpr
                simp only [List.mem_append, List.mem_singleton] at hmem
                rcases hmem with hm | hm | hm | hm
                · exact List.mem_append_left _ (List.mem_append_left _ hm)
                · exact List.mem_append_left _ (List.mem_append_right _ hm)
                · exact List.mem_append_right _ hm
                · exact absurd hm.symm hij
          · intro t ht
            have hordR : ord ++ (Δ0 ++ (Δ1 ++ [r.idx])) = ((ord ++ Δ0) ++ Δ1) ++ [r.idx] := by
              simp [List.append_assoc]
            rw [hordR] at ht ⊢
            rw [List.length_append, List.length_singleton] at ht
            rcases Nat.lt_or_ge t ((ord ++ Δ0) ++ Δ1).length with hlt | hge
            · rw [getD_append_left _ _ _ _ hlt]
              obtain ⟨hA, hB⟩ := hfb2 t hlt
              constructor
              · intro hp
                obtain ⟨u, hu, huv⟩ := hA hp
                exact ⟨u, hu, by
                  rw [getD_append_left _ _ _ _ (Nat.lt_trans hu hlt)]
                  exact huv⟩
              · intro hp
                obtain ⟨u, hu, huv⟩ := hB hp
                exact ⟨u, hu, by
                  rw [getD_append_left _ _ _ _ (Nat.lt_trans hu hlt)]
                  exact huv⟩
            · have hteq : t = ((ord ++ Δ0) ++ Δ1).length := by omega
              subst hteq
              rw [getD_append_self]
              constructor
              · intro hp
                have hmem : (base.getD r.idx AIGNode.dflt).inp0.idx ∈ ord ++ Δ0 := by
                  have := hm0 (by rw [hb0]; exact hp)
                  rw [hb0] at this
                  exact this
                obtain ⟨u, hu, huv⟩ := mem_getD 0 _ _ hmem
                have hule : u < ((ord ++ Δ0) ++ Δ1).length :=
                  Nat.lt_of_lt_of_le hu
                    (by rw [List.length_append (ord ++ Δ0) Δ1]; exact Nat.le_add_right _ _)
                refine ⟨u, hule, ?_⟩
                rw [getD_append_left _ _ _ _ hule]
                rw [getD_append_left _ _ _ _ hu]
                exact huv
              · intro hp
                have hmem : (base.getD r.idx AIGNode.dflt).inp1.idx ∈ (ord ++ Δ0) ++ Δ1 := by
                  have := hm1 (by rw [hb1two]; exact hp)
                  rw [hb1two] at this
                  exact this
                obtain ⟨u, hu, huv⟩ := mem_getD 0 _ _ hmem
                refine ⟨u, hu, ?_⟩
                rw [getD_append_left _ _ _ _ hu]
                exact huv
        · intro j hj
          simp only [List.mem_append, List.mem_singleton] at hj
          rcases hj with hj | hj | hj
          · obtain ⟨hrf, hp0⟩ := hΔ0 j hj
            rw [hb0] at hrf hp0
            exact ⟨reachFrom_trans base r.idx _ j
              (ReachFrom.fanin0 r.idx ReachFrom.refl hp0) hrf, hpf⟩
          · obtain ⟨hrf, hp1⟩ := hΔ1 j hj
            rw [hb1two] at hrf hp1
            exact ⟨reachFrom_trans base r.idx _ j
              (ReachFrom.fanin1 r.idx ReachFrom.refl hp1) hrf, hpf⟩
          · rw [hj]
            exact ⟨ReachFrom.refl, hpf⟩
        · intro _
          simp [List.mem_append]

theorem po_fold_spec (base : List AIGNode) (hacy : Acyclic base) :
    ∀ (pos : List (String × AIGRef)) (ns : List AIGNode) (ord : List Nat),
      TopoInv base ns ord →
      (∀ p ∈ pos, p.2.pi = true ∨ p.2.idx < base.length) →
      ∃ ns2 Δ,
        pos.foldlM (fun (st : List AIGNode × List Nat) p =>
          _topo_visit (base.length + 1) st.1 st.2 p.2) (ns, ord) = some (ns2, ord ++ Δ) ∧
        TopoInv base ns2 (ord ++ Δ) ∧
        (∀ j ∈ Δ, ∃ p ∈ pos, p.2.pi = false ∧ ReachFrom base p.2.idx j) ∧
        (∀ p ∈ pos, p.2.pi = false → p.2.idx ∈ ord ++ Δ) := by
  intro pos
  induction pos with
  | nil =>
    intro ns ord hinv _
    refine ⟨ns, [], ?_, ?_, ?_, ?_⟩
    · simp [List.foldlM_nil]
    · rw [List.append_nil]
      exact hinv
    · intro j hj
      exact absurd hj (List.not_mem_nil j)
    · intro p hp
      exact absurd hp (List.not_mem_nil p)
  | cons p rest ih =>
    intro ns ord hinv hval
    have hv := hval p (List.mem_cons_self _ _)
    have hfuel : p.2.pi = false → p.2.idx + 2 ≤ base.length + 1 := by
      intro hp
      rcases hv with h | h
      · rw [hp] at h
        exact absurd h (by simp)
      · omega
    obtain ⟨ns1, Δ0, he0, hinv1, hΔ0, hm0⟩ :=
      topo_visit_spec base hacy (base.length + 1) ns ord p.2 hinv hv hfuel (fun _ => by omega)
    obtain ⟨ns2, Δ1, he1, hinv2, hΔ1, hm1⟩ :=
      ih ns1 (ord ++ Δ0) hinv1 (fun q hq => hval q (List.mem_cons_of_mem _ hq))
    refine ⟨ns2, Δ0 ++ Δ1, ?_, ?_, ?_, ?_⟩
    · rw [List.foldlM_cons]
      dsimp only
      rw [he0, bind_some', he1]
      rw [List.append_assoc]
    · rw [← List.append_assoc]
      exact hinv2
    · intro j hj
      rcases List.mem_append.mp hj with hj | hj
      · obtain ⟨hrf, hpf⟩ := hΔ0 j hj
        exact ⟨p, List.mem_cons_self _ _, hpf, hrf⟩
      · obtain ⟨q, hq, hqf, hrf⟩ := hΔ1 j hj
        exact ⟨q, List.mem_cons_of_mem _ hq, hqf, hrf⟩
    · intro q hq hqf
      rcases List.mem_cons.mp hq with hq | hq
      · subst hq
        have := hm0 hqf
        rw [← List.append_assoc]
        exact List.mem_append_left _ this
      · have := hm1 q hq hqf
        rw [← List.append_assoc]
        exact this

theorem topoInv_closed (base ns : List AIGNode) (ord : List Nat) (hinv : TopoInv base ns ord) :
    ∀ j ∈ ord,
      ((base.getD j AIGNode.dflt).inp0.pi = false →
        (base.getD j AIGNode.dflt).inp0.idx ∈ ord) ∧
      ((base.getD j AIGNode.dflt).inp1.pi = false →
        (base.getD j AIGNode.dflt).inp1.idx ∈ ord) := by
  obtain ⟨_, _, _, _, hfb⟩ := hinv
  intro j hj
  obtain ⟨t, ht, hjt⟩ := mem_getD 0 ord j hj
  constructor
  · intro hp
    obtain ⟨u, hu, huv⟩ := (hfb t ht).1 (by rw [hjt]; exact hp)
    rw [hjt] at huv
    rw [← huv]
    exact getD_mem 0 ord u (Nat.lt_trans hu ht)
  · intro hp
    obtain ⟨u, hu, huv⟩ := (hfb t ht).2 (by rw [hjt]; exact hp)
    rw [hjt] at huv
    rw [← huv]
    exact getD_mem 0 ord u (Nat.lt_trans hu ht)

theorem reach_closed (base : List AIGNode) (ord : List Nat)
    (hcl : ∀ j ∈ ord,
      ((base.getD j AIGNode.dflt).inp0.pi = false →
        (base.getD j AIGNode.dflt).inp0.idx ∈ ord) ∧
      ((base.getD j AIGNode.dflt).inp1.pi = false →
        (base.getD j AIGNode.dflt).inp1.idx ∈ ord)) :
    ∀ i j, ReachFrom base i j → i ∈ ord → j ∈ ord := by
  intro i j h hi
  induction h with
  | refl => exact hi
  | fanin0 m _ hpi ih2 => exact (hcl m ih2).1 hpi
  | fanin1 m _ hpi ih2 => exact (hcl m ih2).2 hpi

theorem calc_topo_spec (aig : AIG) (hacy : Acyclic aig.nodes) (hpo : PoValid aig) :
    ∃ ord, calc_topo_order aig =
        some ({ aig with
          nodes := aig.nodes.map (fun n => { n with num_fanouts := 0 }),
          topo_order := ord }) ∧
      (∀ i ∈ ord, i < aig.nodes.length) ∧ ord.Nodup ∧
      (∀ t, t < ord.length →
        (((aig.nodes.getD (ord.getD t 0) AIGNode.dflt).inp0.pi = false →
          ∃ u, u < t ∧ ord.getD u 0 =
            (aig.nodes.getD (ord.getD t 0) AIGNode.dflt).inp0.idx) ∧
         ((aig.nodes.getD (ord.getD t 0) AIGNode.dflt).inp1.pi = false →
          ∃ u, u < t ∧ ord.getD u 0 =
            (aig.nodes.getD (ord.getD t 0) AIGNode.dflt).inp1.idx))) ∧
      (∀ i, Reach aig i ↔ i ∈ ord) := by
  have hinv0 : TopoInv aig.nodes (aig.nodes.map (fun n => { n with num_fanouts := 0 })) [] := by
    refine ⟨⟨List.length_map _ _, ?_⟩, ?_, List.nodup_nil, ?_, ?_⟩
    · intro i
      rcases Nat.lt_or_ge i aig.nodes.length with hi | hi
      · rw [getD_map_lt _ _ _ hi]
      · rw [getD_out _ _ _ (by rw [List.length_map]; exact hi), getD_out _ _ _ hi]
    · intro i hi
      exact absurd hi (List.not_mem_nil i)
    · intro i hi
      constructor
      · intro hne
        rw [getD_map_lt _ _ _ hi] at hne
        exact absurd rfl hne
      · intro hmem
        exact absurd hmem (List.not_mem_nil i)
    · intro t ht
      exact absurd ht (by simp)
  obtain ⟨ns2, Δ, he, hinv2, hΔ, hm⟩ :=
    po_fold_spec aig.nodes hacy aig.po (aig.nodes.map (fun n => { n with num_fanouts := 0 }))
      [] hinv0 hpo
  rw [List.nil_append] at he hinv2 hm
  have hnodes : ns2.map (fun n => { n with num_fanouts := 0 }) =
      aig.nodes.map (fun n => { n with num_fanouts := 0 }) := by
    apply ext_of_getD AIGNode.dflt
    · rw [List.length_map, List.length_map]
      exact hinv2.1.1
    · intro i hi
      have hlen2 : i < ns2.length := by
        rw [List.length_map] at hi
        exact hi
      have hlenb : i < aig.nodes.length := by
        rw [← hinv2.1.1]
        exact hlen2
      rw [getD_map_lt _ _ _ hlen2, getD_map_lt _ _ _ hlenb]
      exact hinv2.1.2 i
  have heval : calc_topo_order aig =
      some ({ aig with
        nodes := aig.nodes.map (fun n => { n with num_fanouts := 0 }),
        topo_order := Δ }) := by
    rw [calc_topo_order]
    dsimp only
    rw [he, bind_some']
    dsimp only
    rw [hnodes]
  obtain ⟨hebf2, hbounds2, hnodup2, hmarks2, hfb2⟩ := hinv2
  refine ⟨Δ, heval, hbounds2, hnodup2, hfb2, ?_⟩
  intro i
  constructor
  · rintro ⟨p, hp, hpf, hrf⟩
    have hmem := hm p hp hpf
    exact reach_closed aig.nodes Δ
      (topoInv_closed _ _ _ ⟨hebf2, hbounds2, hnodup2, hmarks2, hfb2⟩) _ _ hrf hmem
  · intro hi
    obtain ⟨p, hp, hpf, hrf⟩ := hΔ i hi
    exact ⟨p, hp, hpf, hrf⟩

/-- Claim C3: after `calc_topo_order` on an acyclic AIG with valid PO edges,
a node is in `topo_order` exactly when it is reachable from some PO (so every
reachable node appears, exactly once by `Nodup`, and unreachable nodes are
absent), every entry appears after both of its non-PI fan-ins, and
`num_fanouts` is zero on every node when the pass returns. -/
theorem claim_C3 (aig : AIG) (hacy : Acyclic aig.nodes) (hpo : PoValid aig) :
    ∃ aig2, calc_topo_order aig = some aig2 ∧
      (∀ i, Reach aig i ↔ i ∈ aig2.topo_order) ∧
      aig2.topo_order.Nodup ∧
      TopoBounded aig2 ∧
      FaninsBefore aig2 ∧
      FanoutsZero aig2.nodes := by
  obtain ⟨ord, heval, hbounds, hnodup, hfb, hreach⟩ := calc_topo_spec aig hacy hpo
  refine ⟨_, heval, hreach, hnodup, ?_, ?_, ?_⟩
  · intro i hi
    have := hbounds i hi
    simpa [List.length_map] using this
  · intro t ht
    have hentry : ord.getD t 0 < aig.nodes.length := hbounds _ (getD_mem 0 ord t ht)
    have hfb' := hfb t ht
    constructor
    · intro hp
      simp only [getD_map_lt _ _ _ hentry] at hp ⊢
      exact hfb'.1 hp
    · intro hp
      simp only [getD_map_lt _ _ _ hentry] at hp ⊢
      exact hfb'.2 hp
  · intro n hn
    obtain ⟨m, _, rfl⟩ := List.mem_map.mp hn
    rfl

/-- Witness for C3 on the XOR AIG. -/
theorem claim_C3_witness :
    Acyclic aigXor.nodes ∧ PoValid aigXor ∧
    (∃ aig2, calc_topo_order aigXor = some aig2 ∧
      (∀ i, Reach aigXor i ↔ i ∈ aig2.topo_order) ∧
      aig2.topo_order.Nodup ∧
      TopoBounded aig2 ∧
      FaninsBefore aig2 ∧
      FanoutsZero aig2.nodes) :=
  ⟨by decide, by decide, claim_C3 aigXor (by decide) (by decide)⟩

/-- Claim C10: on the buffer-chain module the lowered AIG has zero AND nodes,
`topo_order` is empty, and `loopdeloop` fails its `topo_order.len() > 0`
assertion (modelled as `none`), so the pipeline aborts instead of completing;
in general, for an acyclic AIG with valid PO edges, cut enumeration succeeds
exactly when at least one AND node is reachable from some PO. -/
theorem claim_C10 :
    (parse_netlist bufNetlist = some aigBuf ∧
     aigBuf.nodes.length = 0 ∧
     calc_topo_order aigBuf = some aigBuf ∧
     aigBuf.topo_order = [] ∧
     loopdeloop aigBuf = none ∧
     pipeline bufNetlist = none) ∧
    (∀ (aig aig2 : AIG), Acyclic aig.nodes → PoValid aig →
      calc_topo_order aig = some aig2 →
      ((loopdeloop aig2).isSome = true ↔ ∃ i, Reach aig i)) := by
  constructor
  · exact ⟨by decide, by decide, by decide, by decide, by decide, by decide⟩
  · intro aig aig2 hacy hpo hcalc
    obtain ⟨ord, heval, hbounds, hnodup, hfb, hreach⟩ := calc_topo_spec aig hacy hpo
    rw [heval] at hcalc
    injection hcalc with h2
    subst h2
    rw [loopdeloop]
    dsimp only
    by_cases hlen : ord.length > 0
    · rw [if_pos hlen]
      constructor
      · intro _
        have hmem : ord.getD 0 0 ∈ ord := getD_mem 0 ord 0 hlen
        exact ⟨_, (hreach _).mpr hmem⟩
      · intro _
        rfl
    · rw [if_neg hlen]
      constructor
      · intro h
        exact absurd h (by simp)
      · rintro ⟨i, hr⟩
        have hmem := (hreach i).mp hr
        have hne : ord ≠ [] := by
          intro hnil
          rw [hnil] at hmem
          exact absurd hmem (List.not_mem_nil i)
        exact absurd (List.length_pos.mpr hne) hlen

/-- Witness for the general part of C10 on the buffer AIG. -/
theorem claim_C10_witness :
    Acyclic aigBuf.nodes ∧ PoValid aigBuf ∧ calc_topo_order aigBuf = some aigBuf ∧
    ((loopdeloop aigBuf).isSome = true ↔ ∃ i, Reach aigBuf i) :=
  ⟨by decide, by decide, by decide,
    claim_C10.2 aigBuf aigBuf (by decide) (by decide) (by decide)⟩

/-! ### Order facts for the `f32` model -/

theorem afle_top : ∀ x : WithTop F32, afle x ⊤ = true
  | ⊤ => rfl
  | some _ => rfl

theorem afle_refl : ∀ x : WithTop F32, afle x x = true
  | ⊤ => rfl
  | some a => by simp [afle]

theorem afle_of_aflt : ∀ x y : WithTop F32, aflt x y = true → afle x y = true
  | ⊤, y, h => absurd h (by simp [aflt])
  | some _, ⊤, _ => rfl
  | some a, some b, h => by
    simp only [aflt, decide_eq_true_eq] at h
    simp only [afle, decide_eq_true_eq]
    exact le_of_lt h

theorem afle_of_not_aflt : ∀ x y : WithTop F32, aflt x y = false → afle y x = true
  | ⊤, y, _ => afle_top y
  | some _, ⊤, h => absurd h (by simp [aflt])
  | some a, some b, h => by
    simp only [aflt, decide_eq_false_iff_not] at h
    simp only [afle, decide_eq_true_eq]
    exact le_of_not_lt h

theorem afle_trans : ∀ x y z : WithTop F32, AfPos y → afle x y = true → afle y z = true →
    afle x z = true
  | x, _, ⊤, _, _, _ => afle_top x
  | ⊤, ⊤, some _, _, _, h2 => absurd h2 (by simp [afle])
  | ⊤, some _, some _, _, h1, _ => absurd h1 (by simp [afle])
  | some _, ⊤, some _, _, _, h2 => absurd h2 (by simp [afle])
  | some a, some b, some c, hy, h1, h2 => by
    simp only [afle, decide_eq_true_eq] at h1 h2 ⊢
    have hyd : 0 < b.den := hy
    have hd : (0 : Int) < (b.den : Int) := by exact_mod_cast hyd
    nlinarith [mul_le_mul_of_nonneg_right h1 (Int.natCast_nonneg c.den),
               mul_le_mul_of_nonneg_right h2 (Int.natCast_nonneg a.den)]

theorem afpos_top : AfPos (⊤ : WithTop F32) := trivial

theorem afpos_zero : AfPos (0 : WithTop F32) := Nat.one_pos

theorem afpos_one : AfPos (1 : WithTop F32) := Nat.one_pos

theorem afpos_add : ∀ x y : WithTop F32, AfPos x → AfPos y → AfPos (x + y)
  | ⊤, y, _, _ => by rw [WithTop.top_add]; exact trivial
  | some a, ⊤, _, _ => by rw [WithTop.add_top]; exact trivial
  | some a, some b, hx, hy => by
    show 0 < a.den * b.den
    exact Nat.mul_pos hx hy

theorem afpos_sum (f : AIGRef → WithTop F32) :
    ∀ s : Finset AIGRef, (∀ r ∈ s, AfPos (f r)) → AfPos (s.sum f) := by
  intro s
  induction s using Finset.induction_on with
  | empty =>
    intro _
    rw [Finset.sum_empty]
    exact afpos_zero
  | insert hx ih =>
    intro h
    rw [Finset.sum_insert hx]
    exact afpos_add _ _ (h _ (Finset.mem_insert_self _ _))
      (ih fun r hr => h r (Finset.mem_insert_of_mem hr))

theorem afsum_ne_top (f : AIGRef → WithTop F32) :
    ∀ s : Finset AIGRef, (∀ r ∈ s, f r ≠ ⊤) → s.sum f ≠ ⊤ := by
  intro s
  induction s using Finset.induction_on with
  | empty =>
    intro _
    rw [Finset.sum_empty]
    exact WithTop.zero_ne_top
  | insert hx ih =>
    intro h
    rw [Finset.sum_insert hx]
    exact WithTop.add_ne_top.mpr ⟨h _ (Finset.mem_insert_self _ _),
      ih fun r hr => h r (Finset.mem_insert_of_mem hr)⟩

/-! ### Stability of the cut formulas under unrelated node updates -/

theorem cut_arrival_congr (ns ns' : List AIGNode) (c : AIGCut)
    (h : ∀ r ∈ c.refs, r.pi = false → ns'.getD r.idx AIGNode.dflt = ns.getD r.idx AIGNode.dflt) :
    cut_arrival ns' c = cut_arrival ns c := by
  unfold cut_arrival
  apply Finset.sup_congr rfl
  intro r hr
  unfold leaf_arrival
  by_cases hp : r.pi = true
  · rw [if_pos hp, if_pos hp]
  · rw [if_neg hp, if_neg hp, h r hr (bool_eq_false hp)]

theorem cut_area_flow_congr (ns ns' : List AIGNode) (c : AIGCut)
    (h : ∀ r ∈ c.refs, r.pi = false → ns'.getD r.idx AIGNode.dflt = ns.getD r.idx AIGNode.dflt) :
    cut_area_flow ns' c = cut_area_flow ns c := by
  unfold cut_area_flow
  congr 1
  apply Finset.sum_congr rfl
  intro r hr
  unfold leaf_area_flow
  by_cases hp : r.pi = true
  · rw [if_pos hp, if_pos hp]
  · rw [if_neg hp, if_neg hp, h r hr (bool_eq_false hp)]

theorem cut_arrival_refs (ns : List AIGNode) (c c' : AIGCut) (h : c.refs = c'.refs) :
    cut_arrival ns c = cut_arrival ns c' := by
  unfold cut_arrival
  rw [h]

theorem cut_area_flow_refs (ns : List AIGNode) (c c' : AIGCut) (h : c.refs = c'.refs) :
    cut_area_flow ns c = cut_area_flow ns c' := by
  unfold cut_area_flow
  rw [h]

/-! ### The two running-minimum folds -/

theorem foldl_arr_min (l : List AIGCut) :
    ∀ b : Nat,
      (l.foldl (fun b cut => if cut.arrival < b then cut.arrival else b) b = b ∨
        ∃ c ∈ l, l.foldl (fun b cut => if cut.arrival < b then cut.arrival else b) b =
          c.arrival) ∧
      l.foldl (fun b cut => if cut.arrival < b then cut.arrival else b) b ≤ b ∧
      (∀ c ∈ l,
        l.foldl (fun b cut => if cut.arrival < b then cut.arrival else b) b ≤ c.arrival) := by
  induction l with
  | nil =>
    intro b
    exact ⟨Or.inl rfl, le_refl b, fun c hc => absurd hc (List.not_mem_nil c)⟩
  | cons a t ih =>
    intro b
    simp only [List.foldl_cons]
    obtain ⟨hmem, hle, hall⟩ := ih (if a.arrival < b then a.arrival else b)
    refine ⟨?_, ?_, ?_⟩
    · rcases hmem with h | ⟨c, hc, h⟩
      · by_cases ha : a.arrival < b
        · rw [if_pos ha] at h ⊢
          exact Or.inr ⟨a, List.mem_cons_self a t, h⟩
        · rw [if_neg ha] at h ⊢
          exact Or.inl h
      · exact Or.inr ⟨c, List.mem_cons_of_mem a hc, h⟩
    · refine le_trans hle ?_
      by_cases ha : a.arrival < b
      · rw [if_pos ha]
        exact Nat.le_of_lt ha
      · rw [if_neg ha]
    · intro c hc
      rcases List.mem_cons.mp hc with rfl | hc'
      · refine le_trans hle ?_
        by_cases ha : c.arrival < b
        · rw [if_pos ha]
        · rw [if_neg ha]
          exact Nat.le_of_not_lt ha
      · exact hall c hc'

theorem foldl_af_min (l : List AIGCut) :
    ∀ b : WithTop F32, AfPos b → (∀ c ∈ l, AfPos c.area_flow) →
      (l.foldl (fun b cut => if aflt cut.area_flow b then cut.area_flow else b) b = b ∨
        ∃ c ∈ l, l.foldl (fun b cut => if aflt cut.area_flow b then cut.area_flow else b) b =
          c.area_flow) ∧
      afle (l.foldl (fun b cut => if aflt cut.area_flow b then cut.area_flow else b) b) b =
        true ∧
      AfPos (l.foldl (fun b cut => if aflt cut.area_flow b then cut.area_flow else b) b) ∧
      (∀ c ∈ l,
        afle (l.foldl (fun b cut => if aflt cut.area_flow b then cut.area_flow else b) b)
          c.area_flow = true) := by
  induction l with
  | nil =>
    intro b hb _
    exact ⟨Or.inl rfl, afle_refl b, hb, fun c hc => absurd hc (List.not_mem_nil c)⟩
  | cons a t ih =>
    intro b hb hpos
    simp only [List.foldl_cons]
    have hapos : AfPos a.area_flow := hpos a (List.mem_cons_self a t)
    have hbpos : AfPos (if aflt a.area_flow b then a.area_flow else b) := by
      by_cases ha : aflt a.area_flow b = true
      · rw [if_pos ha]; exact hapos
      · rw [if_neg ha]; exact hb
    obtain ⟨hmem, hle, hrpos, hall⟩ :=
      ih (if aflt a.area_flow b then a.area_flow else b) hbpos
        (fun c hc => hpos c (List.mem_cons_of_mem a hc))
    have hb'b : afle (if aflt a.area_flow b then a.area_flow else b) b = true := by
      by_cases ha : aflt a.area_flow b = true
      · rw [if_pos ha]; exact afle_of_aflt _ _ ha
      · rw [if_neg ha]; exact afle_refl b
    have hb'a : afle (if aflt a.area_flow b then a.area_flow else b) a.area_flow = true := by
      by_cases ha : aflt a.area_flow b = true
      · rw [if_pos ha]; exact afle_refl _
      · rw [if_neg ha]
        exact afle_of_not_aflt _ _ (bool_eq_false ha)
    refine ⟨?_, ?_, hrpos, ?_⟩
    · rcases hmem with h | ⟨c, hc, h⟩
      · by_cases ha : aflt a.area_flow b = true
        · rw [if_pos ha] at h ⊢
          exact Or.inr ⟨a, List.mem_cons_self a t, h⟩
        · rw [if_neg ha] at h ⊢
          exact Or.inl h
      · exact Or.inr ⟨c, List.mem_cons_of_mem a hc, h⟩
    · exact afle_trans _ _ _ hbpos hle hb'b
    · intro c hc
      rcases List.mem_cons.mp hc with rfl | hc'
      · exact afle_trans _ _ _ hbpos hle hb'a
      · exact hall c hc'

/-- Unfolding `loopdeloop_step` into its staged pieces. -/
theorem loopdeloop_step_eq (ns : List AIGNode) (j : Nat) :
    loopdeloop_step ns j = ns.set j { ns.getD j AIGNode.dflt with
      cuts := step_with_af ns j,
      arrival := step_best_arrival ns j,
      area_flow := step_best_af ns j } := rfl

theorem top_afle : ∀ x : WithTop F32, afle ⊤ x = true → x = ⊤
  | ⊤, _ => rfl
  | some _, h => absurd h (by simp [afle])

theorem getD_mem_take {α : Type} (d : α) :
    ∀ (l : List α) (s t : Nat), s < t → s < l.length → l.getD s d ∈ l.take t := by
  intro l
  induction l with
  | nil =>
    intro s t _ hs
    exact absurd hs (by simp)
  | cons a tl ih =>
    intro s t hst hs
    cases s with
    | zero =>
      cases t with
      | zero => exact absurd hst (by simp)
      | succ t' => exact List.mem_cons_self a _
    | succ s' =>
      cases t with
      | zero => exact absurd hst (by simp)
      | succ t' =>
        have := ih s' t' (Nat.lt_of_succ_lt_succ hst) (Nat.lt_of_succ_lt_succ hs)
        simpa [List.getD] using List.mem_cons_of_mem a this

theorem nodup_bounded_length (l : List Nat) (n : Nat) (hnd : l.Nodup)
    (hb : ∀ i ∈ l, i < n) : l.length ≤ n := by
  have h1 : l.toFinset.card = l.length := List.toFinset_card_of_nodup hnd
  have h2 : l.toFinset ⊆ Finset.range n :=
    fun i hi => Finset.mem_range.mpr (hb i (List.mem_toFinset.mp hi))
  have h3 := Finset.card_le_card h2
  rw [h1, Finset.card_range] at h3
  exact h3

theorem cut_arrival_le (ns : List AIGNode) (pre : List Nat) (j : Nat) (c : AIGCut)
    (hc : CandOk pre j c)
    (harr : ∀ i ∈ pre, (ns.getD i AIGNode.dflt).arrival ≤ pre.length) :
    cut_arrival ns c ≤ pre.length := by
  refine Finset.sup_le ?_
  intro r hr
  obtain ⟨-, hrest⟩ := hc r hr
  unfold leaf_arrival
  by_cases hp : r.pi = true
  · rw [if_pos hp]
    exact Nat.zero_le _
  · rw [if_neg hp]
    rcases hrest with hpi | ⟨-, hpre⟩
    · exact absurd hpi hp
    · exact harr r.idx hpre

theorem cut_area_flow_ok (ns : List AIGNode) (pre : List Nat) (j : Nat) (c : AIGCut)
    (hc : CandOk pre j c)
    (hne : ∀ i ∈ pre, (ns.getD i AIGNode.dflt).area_flow ≠ ⊤)
    (hpos : ∀ i ∈ pre, AfPos ((ns.getD i AIGNode.dflt).area_flow)) :
    cut_area_flow ns c ≠ ⊤ ∧ AfPos (cut_area_flow ns c) := by
  constructor
  · unfold cut_area_flow
    refine WithTop.add_ne_top.mpr ⟨?_, WithTop.one_ne_top⟩
    refine afsum_ne_top _ _ ?_
    intro r hr
    obtain ⟨-, hrest⟩ := hc r hr
    unfold leaf_area_flow
    by_cases hp : r.pi = true
    · rw [if_pos hp]
      exact WithTop.zero_ne_top
    · rw [if_neg hp]
      rcases hrest with hpi | ⟨-, hpre⟩
      · exact absurd hpi hp
      · exact hne r.idx hpre
  · unfold cut_area_flow
    refine afpos_add _ _ ?_ afpos_one
    refine afpos_sum _ _ ?_
    intro r hr
    obtain ⟨-, hrest⟩ := hc r hr
    unfold leaf_area_flow
    by_cases hp : r.pi = true
    · rw [if_pos hp]
      exact afpos_zero
    · rw [if_neg hp]
      rcases hrest with hpi | ⟨-, hpre⟩
      · exact absurd hpi hp
      · exact hpos r.idx hpre

theorem step_inp_cuts_ok (pre : List Nat) (ns : List AIGNode) (j : Nat) (rr : AIGRef)
    (hrr : rr.pi = false → rr.idx < j ∧ rr.idx ∈ pre)
    (hdone : ∀ i ∈ pre, NodeDone pre ns i) :
    ∀ c ∈ step_inp_cuts ns rr, CandOk pre j c := by
  intro c hc
  unfold step_inp_cuts at hc
  rcases List.mem_append.mp hc with hstored | htriv
  · by_cases hp : rr.pi = true
    · rw [if_pos hp] at hstored
      exact absurd hstored (List.not_mem_nil c)
    · rw [if_neg hp] at hstored
      obtain ⟨hlt, hpre⟩ := hrr (bool_eq_false hp)
      have hd := hdone rr.idx hpre
      unfold NodeDone at hd
      obtain ⟨-, -, hcuts, -⟩ := hd
      obtain ⟨-, hcok, -⟩ := hcuts c hstored
      intro r hr
      obtain ⟨hi, hrest⟩ := hcok r hr
      refine ⟨hi, ?_⟩
      rcases hrest with hpi | ⟨h1, h2⟩
      · exact Or.inl hpi
      · exact Or.inr ⟨lt_trans h1 hlt, h2⟩
  · rw [List.mem_singleton] at htriv
    subst htriv
    intro r hr
    have hr' : r = rr.noinv := Finset.mem_singleton.mp hr
    subst hr'
    refine ⟨rfl, ?_⟩
    by_cases hp : rr.pi = true
    · exact Or.inl hp
    · obtain ⟨hlt, hpre⟩ := hrr (bool_eq_false hp)
      exact Or.inr ⟨hlt, hpre⟩

theorem step_raw_cuts_ok (pre : List Nat) (ns : List AIGNode) (j : Nat)
    (hf0 : (ns.getD j AIGNode.dflt).inp0.pi = false →
      (ns.getD j AIGNode.dflt).inp0.idx < j ∧ (ns.getD j AIGNode.dflt).inp0.idx ∈ pre)
    (hf1 : (ns.getD j AIGNode.dflt).inp1.pi = false →
      (ns.getD j AIGNode.dflt).inp1.idx < j ∧ (ns.getD j AIGNode.dflt).inp1.idx ∈ pre)
    (hdone : ∀ i ∈ pre, NodeDone pre ns i) :
    ∀ c ∈ step_raw_cuts ns j, CandOk pre j c ∧ c.refs.card ≤ LUT_SZ := by
  intro c hc
  unfold step_raw_cuts at hc
  rcases List.mem_flatMap.mp hc with ⟨c0, hc0, hc1m⟩
  rcases List.mem_filterMap.mp hc1m with ⟨c1, hc1, heq⟩
  by_cases hcard : (c0.refs ∪ c1.refs).card > LUT_SZ
  · rw [if_pos hcard] at heq
    exact absurd heq (by simp)
  · rw [if_neg hcard] at heq
    injection heq with heq
    subst heq
    have h0 := step_inp_cuts_ok pre ns j _ hf0 hdone c0 hc0
    have h1 := step_inp_cuts_ok pre ns j _ hf1 hdone c1 hc1
    constructor
    · intro r hr
      rcases Finset.mem_union.mp hr with h | h
      · exact h0 r h
      · exact h1 r h
    · exact Nat.le_of_not_lt hcard

theorem step_raw_cuts_ne_nil (ns : List AIGNode) (j : Nat) : step_raw_cuts ns j ≠ [] := by
  have hmem : (⟨{(ns.getD j AIGNode.dflt).inp0.noinv} ∪ {(ns.getD j AIGNode.dflt).inp1.noinv},
      U32MAX, ⊤⟩ : AIGCut) ∈ step_raw_cuts ns j := by
    unfold step_raw_cuts
    refine List.mem_flatMap.mpr ⟨AIGCut.trivial (ns.getD j AIGNode.dflt).inp0.noinv, ?_, ?_⟩
    · unfold step_inp_cuts
      exact List.mem_append_right _ (List.mem_singleton.mpr rfl)
    · refine List.mem_filterMap.mpr
        ⟨AIGCut.trivial (ns.getD j AIGNode.dflt).inp1.noinv, ?_, ?_⟩
      · unfold step_inp_cuts
        exact List.mem_append_right _ (List.mem_singleton.mpr rfl)
      · have hcard : ¬(((AIGCut.trivial (ns.getD j AIGNode.dflt).inp0.noinv).refs ∪
            (AIGCut.trivial (ns.getD j AIGNode.dflt).inp1.noinv).refs).card > LUT_SZ) := by
          refine Nat.not_lt.mpr ?_
          refine le_trans (Finset.card_union_le _ _) ?_
          simp only [AIGCut.trivial, Finset.card_singleton, LUT_SZ]
          omega
        rw [if_neg hcard]
        rfl
  intro h
  rw [h] at hmem
  exact absurd hmem (List.not_mem_nil _)

theorem step_filtered_sub (ns : List AIGNode) (j : Nat) :
    ∀ c ∈ step_filtered ns j, c ∈ step_raw_cuts ns j := by
  intro c hc
  unfold step_filtered at hc
  have h := dominance_filter_subset (step_raw_cuts ns j) [] c hc
  simpa using h

theorem step_filtered_ne_nil (ns : List AIGNode) (j : Nat) : step_filtered ns j ≠ [] := by
  unfold step_filtered
  refine dominance_filter_ne_nil _ _ ?_
  simpa using step_raw_cuts_ne_nil ns j

theorem step_with_af_ne_nil (ns : List AIGNode) (j : Nat) : step_with_af ns j ≠ [] := by
  unfold step_with_af step_with_arrival
  intro h
  rcases List.map_eq_nil.mp (List.map_eq_nil.mp h) with h2
  exact step_filtered_ne_nil ns j h2

theorem step_with_af_mem (ns : List AIGNode) (j : Nat)
    (hnf : (ns.getD j AIGNode.dflt).num_fanouts = 0) :
    ∀ c ∈ step_with_af ns j, ∃ c0 ∈ step_filtered ns j,
      c.refs = c0.refs ∧
      c.arrival = (1 + cut_arrival ns c0) % 2 ^ 32 ∧
      c.area_flow = cut_area_flow ns c0 := by
  intro c hc
  unfold step_with_af at hc
  rcases List.mem_map.mp hc with ⟨c1, hc1, hec⟩
  unfold step_with_arrival at hc1
  rcases List.mem_map.mp hc1 with ⟨c0, hc0, hec1⟩
  refine ⟨c0, hc0, ?_⟩
  subst hec
  subst hec1
  refine ⟨rfl, rfl, ?_⟩
  rw [hnf]
  rw [if_neg (lt_irrefl 0)]
  exact cut_area_flow_refs ns _ c0 rfl

theorem foldl_arr_map (l : List AIGCut) (g : AIGCut → AIGCut)
    (hg : ∀ c, (g c).arrival = c.arrival) :
    ∀ b, (l.map g).foldl (fun b cut => if cut.arrival < b then cut.arrival else b) b =
      l.foldl (fun b cut => if cut.arrival < b then cut.arrival else b) b := by
  induction l with
  | nil => intro b; rfl
  | cons a t ih =>
    intro b
    simp only [List.map_cons, List.foldl_cons, hg]
    exact ih _

/-- A processed node keeps its `NodeDone` properties when a different node is
overwritten and the processed set grows. -/
theorem nodeDone_mono (pre : List Nat) (ns : List AIGNode) (j : Nat) (v : AIGNode)
    (hjpre : j ∉ pre) (i : Nat) (hi : i ∈ pre) (hd : NodeDone pre ns i) :
    NodeDone (pre ++ [j]) (ns.set j v) i := by
  have hij : j ≠ i := fun h => hjpre (h ▸ hi)
  have hgi : (ns.set j v).getD i AIGNode.dflt = ns.getD i AIGNode.dflt :=
    getD_set_ne AIGNode.dflt ns j i v hij
  unfold NodeDone at hd ⊢
  obtain ⟨hnf, hne, hcuts, harr, hex, hall, hafne, hafpos, hexaf, hallaf⟩ := hd
  rw [hgi]
  refine ⟨hnf, hne, ?_,
    le_trans harr (by simp only [List.length_append, List.length_cons, List.length_nil]; omega),
    hex, hall, hafne, hafpos, hexaf, hallaf⟩
  intro c hc
  obtain ⟨hcard, hcok, hca, hcaf, hcne, hcpos⟩ := hcuts c hc
  have hstable : ∀ r ∈ c.refs, r.pi = false →
      (ns.set j v).getD r.idx AIGNode.dflt = ns.getD r.idx AIGNode.dflt := by
    intro r hr hp
    obtain ⟨-, hrest⟩ := hcok r hr
    rcases hrest with hpi | ⟨-, hpre⟩
    · rw [hp] at hpi
      exact absurd hpi (by simp)
    · exact getD_set_ne AIGNode.dflt ns j r.idx v (fun h => hjpre (h ▸ hpre))
  refine ⟨hcard, ?_, ?_, ?_, hcne, hcpos⟩
  · intro r hr
    obtain ⟨hi0, hrest⟩ := hcok r hr
    refine ⟨hi0, ?_⟩
    rcases hrest with hpi | ⟨h1, h2⟩
    · exact Or.inl hpi
    · exact Or.inr ⟨h1, List.mem_append_left _ h2⟩
  · rw [cut_arrival_congr ns (ns.set j v) c hstable]
    exact hca
  · rw [cut_area_flow_congr ns (ns.set j v) c hstable]
    exact hcaf

/-- One iteration of the `loopdeloop` main loop preserves the loop invariant.
`j` is the next `topo_order` entry: in range, unprocessed, and with both of
its non-PI fan-ins already processed below it. -/
theorem step_preserves (base : List AIGNode) (hfz : FanoutsZero base)
    (pre : List Nat) (ns : List AIGNode) (hinv : StepInv base pre ns)
    (j : Nat) (hj : j < base.length) (hjpre : j ∉ pre)
    (hf0 : (base.getD j AIGNode.dflt).inp0.pi = false →
      (base.getD j AIGNode.dflt).inp0.idx < j ∧ (base.getD j AIGNode.dflt).inp0.idx ∈ pre)
    (hf1 : (base.getD j AIGNode.dflt).inp1.pi = false →
      (base.getD j AIGNode.dflt).inp1.idx < j ∧ (base.getD j AIGNode.dflt).inp1.idx ∈ pre)
    (hsmall : pre.length + 1 < 2 ^ 32) :
    StepInv base (pre ++ [j]) (loopdeloop_step ns j) := by
  unfold StepInv at hinv
  obtain ⟨hlen, hunch, hdone⟩ := hinv
  have hjn : ns.getD j AIGNode.dflt = base.getD j AIGNode.dflt := hunch j hjpre
  have hjlen : j < ns.length := by rw [hlen]; exact hj
  have hnf : (ns.getD j AIGNode.dflt).num_fanouts = 0 := by
    rw [hjn]
    exact hfz _ (getD_mem AIGNode.dflt base j hj)
  have harr_le : ∀ i ∈ pre, (ns.getD i AIGNode.dflt).arrival ≤ pre.length := by
    intro i hi
    have hd := hdone i hi
    unfold NodeDone at hd
    exact hd.2.2.2.1
  have haf_ne : ∀ i ∈ pre, (ns.getD i AIGNode.dflt).area_flow ≠ ⊤ := by
    intro i hi
    have hd := hdone i hi
    unfold NodeDone at hd
    exact hd.2.2.2.2.2.2.1
  have haf_pos : ∀ i ∈ pre, AfPos (ns.getD i AIGNode.dflt).area_flow := by
    intro i hi
    have hd := hdone i hi
    unfold NodeDone at hd
    exact hd.2.2.2.2.2.2.2.1
  have hf0' : (ns.getD j AIGNode.dflt).inp0.pi = false →
      (ns.getD j AIGNode.dflt).inp0.idx < j ∧ (ns.getD j AIGNode.dflt).inp0.idx ∈ pre := by
    rw [hjn]; exact hf0
  have hf1' : (ns.getD j AIGNode.dflt).inp1.pi = false →
      (ns.getD j AIGNode.dflt).inp1.idx < j ∧ (ns.getD j AIGNode.dflt).inp1.idx ∈ pre := by
    rw [hjn]; exact hf1
  have hraw := step_raw_cuts_ok pre ns j hf0' hf1' hdone
  have hwaf : ∀ c ∈ step_with_af ns j,
      c.refs.card ≤ LUT_SZ ∧ CandOk pre j c ∧
      c.arrival = 1 + cut_arrival ns c ∧ c.arrival ≤ pre.length + 1 ∧
      c.area_flow = cut_area_flow ns c ∧ c.area_flow ≠ ⊤ ∧ AfPos c.area_flow := by
    intro c hc
    obtain ⟨c0, hc0, hrefs, harr0, haf0⟩ := step_with_af_mem ns j hnf c hc
    obtain ⟨hcok0, hcard0⟩ := hraw c0 (step_filtered_sub ns j c0 hc0)
    have hcok : CandOk pre j c := by
      intro r hr
      rw [hrefs] at hr
      exact hcok0 r hr
    have hcale : cut_arrival ns c0 ≤ pre.length := cut_arrival_le ns pre j c0 hcok0 harr_le
    have hlt32 : 1 + cut_arrival ns c0 < 2 ^ 32 := lt_of_le_of_lt (by omega) hsmall
    have hmod : (1 + cut_arrival ns c0) % 2 ^ 32 = 1 + cut_arrival ns c0 :=
      Nat.mod_eq_of_lt hlt32
    have hca : cut_arrival ns c = cut_arrival ns c0 := cut_arrival_refs ns c c0 hrefs
    have hcaf2 : cut_area_flow ns c = cut_area_flow ns c0 := cut_area_flow_refs ns c c0 hrefs
    obtain ⟨hne0, hpos0⟩ := cut_area_flow_ok ns pre j c0 hcok0 haf_ne haf_pos
    refine ⟨?_, hcok, ?_, ?_, ?_, ?_, ?_⟩
    · rw [hrefs]
      exact hcard0
    · rw [harr0, hmod, hca]
    · rw [harr0, hmod]
      omega
    · rw [haf0, hcaf2]
    · rw [haf0]
      exact hne0
    · rw [haf0]
      exact hpos0
  rw [loopdeloop_step_eq]
  unfold StepInv
  refine ⟨?_, ?_, ?_⟩
  · rw [List.length_set]
    exact hlen
  · intro i hi
    have hipre : i ∉ pre := fun h => hi (List.mem_append_left _ h)
    have hij : j ≠ i := fun h => hi (List.mem_append_right _ (List.mem_singleton.mpr h.symm))
    rw [getD_set_ne AIGNode.dflt ns j i _ hij]
    exact hunch i hipre
  · intro i hi
    rcases List.mem_append.mp hi with hip | hij
    · exact nodeDone_mono pre ns j _ hjpre i hip (hdone i hip)
    · rw [List.mem_singleton] at hij
      subst hij
      have hgj : (ns.set i ({ ns.getD i AIGNode.dflt with
          cuts := step_with_af ns i, arrival := step_best_arrival ns i,
          area_flow := step_best_af ns i })).getD i AIGNode.dflt =
          { ns.getD i AIGNode.dflt with
            cuts := step_with_af ns i, arrival := step_best_arrival ns i,
            area_flow := step_best_af ns i } :=
        getD_set_self AIGNode.dflt ns i _ hjlen
      have hstable : ∀ (c : AIGCut), CandOk pre i c → ∀ r ∈ c.refs, r.pi = false →
          (ns.set i ({ ns.getD i AIGNode.dflt with
            cuts := step_with_af ns i, arrival := step_best_arrival ns i,
            area_flow := step_best_af ns i })).getD r.idx AIGNode.dflt =
          ns.getD r.idx AIGNode.dflt := by
        intro c hcok r hr hp
        obtain ⟨-, hrest⟩ := hcok r hr
        rcases hrest with hpi | ⟨-, hpre⟩
        · rw [hp] at hpi
          exact absurd hpi (by simp)
        · exact getD_set_ne AIGNode.dflt ns i r.idx _ (fun h => hjpre (h ▸ hpre))
      have hbar : (step_with_af ns i).foldl
          (fun b cut => if cut.arrival < b then cut.arrival else b) U32MAX =
          step_best_arrival ns i := by
        unfold step_best_arrival step_with_af
        refine foldl_arr_map _ _ ?_ U32MAX
        intro c
        rfl
      obtain ⟨hmemA, -, hallA⟩ := foldl_arr_min (step_with_af ns i) U32MAX
      rw [hbar] at hmemA hallA
      rcases List.exists_mem_of_ne_nil (step_with_af ns i) (step_with_af_ne_nil ns i)
        with ⟨cw, hcw⟩
      have hcwb : cw.arrival ≤ pre.length + 1 := (hwaf cw hcw).2.2.2.1
      have hRb : step_best_arrival ns i ≤ pre.length + 1 := le_trans (hallA cw hcw) hcwb
      have hexA : ∃ c ∈ step_with_af ns i, step_best_arrival ns i = c.arrival := by
        rcases hmemA with hR | hex
        · refine ⟨cw, hcw, ?_⟩
          have h1 := hallA cw hcw
          have hc32 : (2 : Nat) ^ 32 = 4294967296 := by norm_num
          unfold U32MAX at hR
          rw [hc32] at hR hsmall
          omega
        · exact hex
      have hposall : ∀ c ∈ step_with_af ns i, AfPos c.area_flow :=
        fun c hc => (hwaf c hc).2.2.2.2.2.2
      obtain ⟨hmemF, -, hposF, hallF⟩ := foldl_af_min (step_with_af ns i) ⊤ afpos_top hposall
      have hbaf : (step_with_af ns i).foldl
          (fun b cut => if aflt cut.area_flow b then cut.area_flow else b)
          (⊤ : WithTop F32) = step_best_af ns i := rfl
      rw [hbaf] at hmemF hposF hallF
      have hexF : ∃ c ∈ step_with_af ns i, step_best_af ns i = c.area_flow := by
        rcases hmemF with hR | hex
        · exfalso
          have h1 := hallF cw hcw
          rw [hR] at h1
          exact (hwaf cw hcw).2.2.2.2.2.1 (top_afle _ h1)
        · exact hex
      have hFne : step_best_af ns i ≠ ⊤ := by
        rcases hexF with ⟨c, hc, he⟩
        rw [he]
        exact (hwaf c hc).2.2.2.2.2.1
      unfold NodeDone
      rw [hgj]
      refine ⟨hnf, step_with_af_ne_nil ns i, ?_, ?_, hexA, hallA, hFne, hposF, hexF, hallF⟩
      · intro c hc
        obtain ⟨hcard, hcok, hca, -, hcaf, hcne, hcpos⟩ := hwaf c hc
        have hst := hstable c hcok
        refine ⟨hcard, ?_, ?_, ?_, hcne, hcpos⟩
        · intro r hr
          obtain ⟨hi0, hrest⟩ := hcok r hr
          refine ⟨hi0, ?_⟩
          rcases hrest with hpi | ⟨h1, h2⟩
          · exact Or.inl hpi
          · exact Or.inr ⟨h1, List.mem_append_left _ h2⟩
        · rw [cut_arrival_congr ns _ c hst]
          exact hca
        · rw [cut_area_flow_congr ns _ c hst]
          exact hcaf
      · rw [show (pre ++ [i]).length = pre.length + 1 from by
          simp only [List.length_append, List.length_cons, List.length_nil]]
        exact hRb

/-- Folding `loopdeloop_step` over a suffix of the topological order carries
the loop invariant through, provided the suffix entries are in-range, globally
distinct, and each has its non-PI fan-ins among the earlier entries. -/
theorem loopdeloop_fold (base : List AIGNode) (hacy : Acyclic base) (hfz : FanoutsZero base) :
    ∀ (suf pre : List Nat) (ns : List AIGNode),
      (∀ i ∈ suf, i < base.length) →
      (pre ++ suf).Nodup →
      (∀ t, t < suf.length →
        (((base.getD (suf.getD t 0) AIGNode.dflt).inp0.pi = false →
           (base.getD (suf.getD t 0) AIGNode.dflt).inp0.idx ∈ pre ++ suf.take t) ∧
         ((base.getD (suf.getD t 0) AIGNode.dflt).inp1.pi = false →
           (base.getD (suf.getD t 0) AIGNode.dflt).inp1.idx ∈ pre ++ suf.take t))) →
      pre.length + suf.length ≤ base.length →
      base.length < 2 ^ 32 →
      StepInv base pre ns →
      StepInv base (pre ++ suf) (suf.foldl loopdeloop_step ns) := by
  intro suf
  induction suf with
  | nil =>
    intro pre ns _ _ _ _ _ hinv
    simpa using hinv
  | cons j rest ih =>
    intro pre ns hb hnd hfan hlen hsm hinv
    have hj : j < base.length := hb j (List.mem_cons_self j rest)
    have hjpre : j ∉ pre := by
      rcases List.nodup_append.mp hnd with ⟨-, -, hdisj⟩
      intro h
      exact hdisj h (List.mem_cons_self j rest)
    have hf := hfan 0 (by simp)
    have hacyj := hacy j hj
    have hsmall : pre.length + 1 < 2 ^ 32 := by
      have h1 : pre.length + 1 ≤ base.length := by
        have := List.length_cons j rest
        omega
      omega
    have hstep := step_preserves base hfz pre ns hinv j hj hjpre
      (fun hp => ⟨hacyj.1 hp, by simpa using hf.1 hp⟩)
      (fun hp => ⟨hacyj.2 hp, by simpa using hf.2 hp⟩)
      hsmall
    have happ : (pre ++ [j]) ++ rest = pre ++ j :: rest := by simp
    have hre := ih (pre ++ [j]) (loopdeloop_step ns j)
      (fun i hi => hb i (List.mem_cons_of_mem j hi))
      (by rw [happ]; exact hnd)
      ?_ ?_ hsm hstep
    · rw [List.foldl_cons]
      rw [← happ]
      exact hre
    · intro t ht
      have h1 := hfan (t + 1) (by simpa using Nat.succ_lt_succ ht)
      have hget : (j :: rest).getD (t + 1) 0 = rest.getD t 0 := rfl
      have htake : pre ++ (j :: rest).take (t + 1) = (pre ++ [j]) ++ rest.take t := by
        simp
      rw [hget, htake] at h1
      exact h1
    · simp only [List.length_append, List.length_cons, List.length_nil] at hlen ⊢
      omega

/-- The `loopdeloop` main loop establishes the full invariant over the whole
topological order. -/
theorem loopdeloop_master (aig : AIG) (hacy : Acyclic aig.nodes) (htb : TopoBounded aig)
    (hnd : aig.topo_order.Nodup) (hfb : FaninsBefore aig) (hfz : FanoutsZero aig.nodes)
    (hsm : aig.nodes.length < 2 ^ 32) :
    StepInv aig.nodes aig.topo_order (aig.topo_order.foldl loopdeloop_step aig.nodes) := by
  have h0 : StepInv aig.nodes [] aig.nodes := by
    unfold StepInv
    exact ⟨rfl, fun i _ => rfl, fun i hi => absurd hi (List.not_mem_nil i)⟩
  have hfan : ∀ t, t < aig.topo_order.length →
      (((aig.nodes.getD (aig.topo_order.getD t 0) AIGNode.dflt).inp0.pi = false →
         (aig.nodes.getD (aig.topo_order.getD t 0) AIGNode.dflt).inp0.idx ∈
           [] ++ aig.topo_order.take t) ∧
       ((aig.nodes.getD (aig.topo_order.getD t 0) AIGNode.dflt).inp1.pi = false →
         (aig.nodes.getD (aig.topo_order.getD t 0) AIGNode.dflt).inp1.idx ∈
           [] ++ aig.topo_order.take t)) := by
    intro t ht
    have hfb' := hfb t ht
    constructor
    · intro hp
      obtain ⟨s, hs, he⟩ := hfb'.1 hp
      rw [List.nil_append, ← he]
      exact getD_mem_take 0 aig.topo_order s t hs (lt_trans hs ht)
    · intro hp
      obtain ⟨s, hs, he⟩ := hfb'.2 hp
      rw [List.nil_append, ← he]
      exact getD_mem_take 0 aig.topo_order s t hs (lt_trans hs ht)
  have hcard : aig.topo_order.length ≤ aig.nodes.length :=
    nodup_bounded_length aig.topo_order aig.nodes.length hnd htb
  have h := loopdeloop_fold aig.nodes hacy hfz aig.topo_order [] aig.nodes htb
    (by simpa using hnd) hfan (by simpa using hcard) hsm h0
  simpa using h

/-- Claim C4: after cut enumeration, every cut stored at any node has at most
`LUT_SZ = 4` leaves, and every leaf has its inversion bit cleared and is
either a PI or an AND node of strictly smaller index. -/
theorem claim_C4 (aig : AIG) (hacy : Acyclic aig.nodes) (htb : TopoBounded aig)
    (hnd : aig.topo_order.Nodup) (hfb : FaninsBefore aig) (hce : CutsEmpty aig.nodes)
    (hfz : FanoutsZero aig.nodes) (hsm : aig.nodes.length < 2 ^ 32)
    (aig2 : AIG) (h : loopdeloop aig = some aig2) :
    ∀ i, i < aig2.nodes.length → ∀ c ∈ (aig2.nodes.getD i AIGNode.dflt).cuts,
      c.refs.card ≤ LUT_SZ ∧
      ∀ r ∈ c.refs, r.invert = false ∧ (r.pi = true ∨ r.idx < i) := by
  rw [loopdeloop] at h
  by_cases hl : aig.topo_order.length > 0
  · rw [if_pos hl] at h
    injection h with h
    subst h
    intro i hi c hc
    dsimp only at hi hc ⊢
    have hmaster := loopdeloop_master aig hacy htb hnd hfb hfz hsm
    unfold StepInv at hmaster
    obtain ⟨hlen, hunch, hdone⟩ := hmaster
    by_cases hip : i ∈ aig.topo_order
    · have hd := hdone i hip
      unfold NodeDone at hd
      obtain ⟨-, -, hcuts, -⟩ := hd
      obtain ⟨hcard, hcok, -⟩ := hcuts c hc
      refine ⟨hcard, ?_⟩
      intro r hr
      obtain ⟨h1, h2⟩ := hcok r hr
      refine ⟨h1, ?_⟩
      rcases h2 with hpi | ⟨hlt, -⟩
      · exact Or.inl hpi
      · exact Or.inr hlt
    · rw [hunch i hip] at hc
      rw [hlen] at hi
      rw [hce _ (getD_mem AIGNode.dflt aig.nodes i hi)] at hc
      exact absurd hc (List.not_mem_nil c)
  · rw [if_neg hl] at h
    exact absurd h (by simp)

/-- Witness for C4 on the XOR AIG with its topological order. -/
theorem claim_C4_witness :
    (Acyclic aigXorT.nodes ∧ TopoBounded aigXorT ∧ aigXorT.topo_order.Nodup ∧
     FaninsBefore aigXorT ∧ CutsEmpty aigXorT.nodes ∧ FanoutsZero aigXorT.nodes ∧
     aigXorT.nodes.length < 2 ^ 32 ∧
     loopdeloop aigXorT = some ((loopdeloop aigXorT).getD AIG.dflt)) ∧
    (∀ i, i < ((loopdeloop aigXorT).getD AIG.dflt).nodes.length →
      ∀ c ∈ (((loopdeloop aigXorT).getD AIG.dflt).nodes.getD i AIGNode.dflt).cuts,
        c.refs.card ≤ LUT_SZ ∧
        ∀ r ∈ c.refs, r.invert = false ∧ (r.pi = true ∨ r.idx < i)) :=
  ⟨⟨by decide, by decide, by decide, by decide, by decide, by decide, by decide, by decide⟩,
   claim_C4 aigXorT (by decide) (by decide) (by decide) (by decide) (by decide) (by decide)
     (by decide) ((loopdeloop aigXorT).getD AIG.dflt) (by decide)⟩

/-- Claim C7: after cut enumeration, every stored cut's arrival equals
`1 + max(leaf arrivals)` with PI leaves contributing `0` and node leaves their
per-node arrival, and each enumerated node's per-node arrival is the minimum
cut arrival over its stored cuts. -/
theorem claim_C7 (aig : AIG) (hacy : Acyclic aig.nodes) (htb : TopoBounded aig)
    (hnd : aig.topo_order.Nodup) (hfb : FaninsBefore aig) (hce : CutsEmpty aig.nodes)
    (hfz : FanoutsZero aig.nodes) (hsm : aig.nodes.length < 2 ^ 32)
    (aig2 : AIG) (h : loopdeloop aig = some aig2) :
    ∀ i, i < aig2.nodes.length →
      (∀ c ∈ (aig2.nodes.getD i AIGNode.dflt).cuts,
        c.arrival = 1 + cut_arrival aig2.nodes c) ∧
      (i ∈ aig.topo_order →
        (∃ c ∈ (aig2.nodes.getD i AIGNode.dflt).cuts,
          (aig2.nodes.getD i AIGNode.dflt).arrival = c.arrival) ∧
        (∀ c ∈ (aig2.nodes.getD i AIGNode.dflt).cuts,
          (aig2.nodes.getD i AIGNode.dflt).arrival ≤ c.arrival)) := by
  rw [loopdeloop] at h
  by_cases hl : aig.topo_order.length > 0
  · rw [if_pos hl] at h
    injection h with h
    subst h
    intro i hi
    dsimp only at hi ⊢
    have hmaster := loopdeloop_master aig hacy htb hnd hfb hfz hsm
    unfold StepInv at hmaster
    obtain ⟨hlen, hunch, hdone⟩ := hmaster
    by_cases hip : i ∈ aig.topo_order
    · have hd := hdone i hip
      unfold NodeDone at hd
      obtain ⟨-, -, hcuts, -, hex, hall, -⟩ := hd
      refine ⟨?_, fun _ => ⟨hex, hall⟩⟩
      intro c hc
      exact (hcuts c hc).2.2.1
    · refine ⟨?_, fun hip2 => absurd hip2 hip⟩
      intro c hc
      rw [hunch i hip] at hc
      rw [hlen] at hi
      rw [hce _ (getD_mem AIGNode.dflt aig.nodes i hi)] at hc
      exact absurd hc (List.not_mem_nil c)
  · rw [if_neg hl] at h
    exact absurd h (by simp)

/-- Witness for C7 on the XOR AIG with its topological order. -/
theorem claim_C7_witness :
    (Acyclic aigXorT.nodes ∧ TopoBounded aigXorT ∧ aigXorT.topo_order.Nodup ∧
     FaninsBefore aigXorT ∧ CutsEmpty aigXorT.nodes ∧ FanoutsZero aigXorT.nodes ∧
     aigXorT.nodes.length < 2 ^ 32 ∧
     loopdeloop aigXorT = some ((loopdeloop aigXorT).getD AIG.dflt)) ∧
    (∀ i, i < ((loopdeloop aigXorT).getD AIG.dflt).nodes.length →
      (∀ c ∈ (((loopdeloop aigXorT).getD AIG.dflt).nodes.getD i AIGNode.dflt).cuts,
        c.arrival = 1 + cut_arrival ((loopdeloop aigXorT).getD AIG.dflt).nodes c) ∧
      (i ∈ aigXorT.topo_order →
        (∃ c ∈ (((loopdeloop aigXorT).getD AIG.dflt).nodes.getD i AIGNode.dflt).cuts,
          (((loopdeloop aigXorT).getD AIG.dflt).nodes.getD i AIGNode.dflt).arrival =
            c.arrival) ∧
        (∀ c ∈ (((loopdeloop aigXorT).getD AIG.dflt).nodes.getD i AIGNode.dflt).cuts,
          (((loopdeloop aigXorT).getD AIG.dflt).nodes.getD i AIGNode.dflt).arrival ≤
            c.arrival))) :=
  ⟨⟨by decide, by decide, by decide, by decide, by decide, by decide, by decide, by decide⟩,
   claim_C7 aigXorT (by decide) (by decide) (by decide) (by decide) (by decide) (by decide)
     (by decide) ((loopdeloop aigXorT).getD AIG.dflt) (by decide)⟩
